import Mathlib

/-!
# Timeseries binary receiver: decoder and metrics assembler

A shallow embedding of `decoder.go` and of `metricsFromSamples` in `receiver.go`.

* The reader `io.Reader` is a finite list of bytes; every function that reads
  returns the bytes that remain.
* Go strings are byte sequences.
* A `float64` is carried as its IEEE-754 bit pattern (a number below `2^64`):
  `math.Float64frombits` is a bit cast, and the code never computes with the value.
* `int64` arithmetic is arithmetic on `Int` followed by an explicit wrap to 64 bits.
-/

namespace TimeseriesBinary

/-! ## Bytes, strings, maps, errors -/

/-- One byte. -/
abbrev Byte := Fin 256

/-- A Go `string` or `[]byte`. -/
abbrev Str := List Byte

/-- A Go `map[K]V`, kept as the list of its entries. `mapPut` keeps the keys
distinct, so the list order carries no meaning beyond being one possible
iteration order. -/
abbrev GoMap (κ ν : Type) := List (κ × ν)

/-- Map read `m[k]` with the comma-ok result. -/
def mapGet {κ ν : Type} [DecidableEq κ] : GoMap κ ν → κ → Option ν
  | [], _ => none
  | (k', v) :: rest, k => if k' = k then some v else mapGet rest k

/-- Map write `m[k] = v`: replaces the entry of `k` when there is one, adds an
entry otherwise. -/
def mapPut {κ ν : Type} [DecidableEq κ] : GoMap κ ν → κ → ν → GoMap κ ν
  | [], k, v => [(k, v)]
  | (k', v') :: rest, k, v =>
    if k' = k then (k, v) :: rest else (k', v') :: mapPut rest k v

instance instDecidableEqLabels : DecidableEq (Option (GoMap Str Str)) := inferInstance

/-- The error values the decoder can see: the two sentinels of package `io`, an
error made by `fmt.Errorf` with `%w` around another error, and one made by
`fmt.Errorf` from a plain message. -/
inductive GoError where
  | EOF : GoError
  | ErrUnexpectedEOF : GoError
  | wrapped (msg : String) (inner : GoError) : GoError
  | errorf (msg : String) : GoError
  deriving DecidableEq, Repr

/-! ## Library functions the decoder calls -/

/-- The function `io.ReadFull(r, buf)` with `len(buf) = n` on a reader holding
the bytes `r`: the bytes read or the error, and the reader afterwards. A
zero-length read succeeds without touching the reader; a short read gives
`io.EOF` when no byte was available and `io.ErrUnexpectedEOF` otherwise. -/
def readFull (r : List Byte) (n : Nat) : (List Byte ⊕ GoError) × List Byte :=
  if n = 0 then (.inl [], r)
  else if n ≤ r.length then (.inl (r.take n), r.drop n)
  else if r.length = 0 then (.inr GoError.EOF, [])
  else (.inr GoError.ErrUnexpectedEOF, [])

/-- Little-endian value of a byte sequence (`binary.LittleEndian.Uint16` on two
bytes, `binary.LittleEndian.Uint64` on eight). -/
def littleEndian : List Byte → Nat
  | [] => 0
  | b :: bs => b.val + 256 * littleEndian bs

/-- The conversion `int64(u)` of an unsigned 64-bit number. -/
def toInt64 (u : Nat) : Int :=
  if u < 2 ^ 63 then (u : Int) else (u : Int) - 2 ^ 64

/-- Wrap an integer to the `int64` range (two's complement overflow). -/
def wrapInt64 (x : Int) : Int :=
  (x + 2 ^ 63) % 2 ^ 64 - 2 ^ 63

/-- The function `strings.Split(s, "\x00")`: the pieces of `s` between NUL
bytes, one more than there are NUL bytes. -/
def splitNul : Str → List Str
  | [] => [[]]
  | b :: bs =>
    if b = 0 then [] :: splitNul bs
    else
      match splitNul bs with
      | [] => [[b]]
      | p :: ps => (b :: p) :: ps

/-! ## `time.Time` -/

/-- The location pointer of a `time.Time`; `utc` is the nil pointer, which
means UTC. -/
inductive Loc where
  | utc : Loc
  | localLoc : Loc
  deriving DecidableEq, Repr

/-- A `time.Time` without monotonic reading: `nsec` nanoseconds within the
second and `sec` seconds since January 1 of year 1. -/
structure Time where
  nsec : Nat
  sec : Int
  loc : Loc
  deriving DecidableEq, Repr

/-- The zero value `var ts time.Time`. -/
def Time.zero : Time := ⟨0, 0, Loc.utc⟩

/-- The constant `unixToInternal`: seconds from year 1 to 1970. -/
def unixToInternal : Int := (1969 * 365 + 1969 / 4 - 1969 / 100 + 1969 / 400) * 86400

/-- The function `time.Unix(sec, nsec)`. -/
def timeUnix (sec nsec : Int) : Time :=
  if nsec < 0 ∨ nsec ≥ 1000000000 then
    let n := Int.tdiv nsec 1000000000
    let sec1 := wrapInt64 (sec + n)
    let nsec1 := nsec - n * 1000000000
    if nsec1 < 0 then
      ⟨(nsec1 + 1000000000).toNat, wrapInt64 (wrapInt64 (sec1 - 1) + unixToInternal), Loc.localLoc⟩
    else
      ⟨nsec1.toNat, wrapInt64 (sec1 + unixToInternal), Loc.localLoc⟩
  else
    ⟨nsec.toNat, wrapInt64 (sec + unixToInternal), Loc.localLoc⟩

/-- The method `Time.UTC`. -/
def Time.UTC (t : Time) : Time := { t with loc := Loc.utc }

/-- The method `Time.IsZero`. -/
def Time.IsZero (t : Time) : Bool := t.sec == 0 && t.nsec == 0

/-- Seconds since the Unix epoch, `t.unixSec()`. -/
def Time.unixSec (t : Time) : Int := wrapInt64 (t.sec - unixToInternal)

/-- The method `Time.UnixNano`. -/
def Time.UnixNano (t : Time) : Int :=
  wrapInt64 (wrapInt64 (t.unixSec * 1000000000) + (t.nsec : Int))

/-- The method `Time.UnixMilli`. -/
def Time.UnixMilli (t : Time) : Int :=
  wrapInt64 (wrapInt64 (t.unixSec * 1000) + Int.tdiv (t.nsec : Int) 1000000)

/-! ## decoder.go -/

/-- The struct `metricSample`. `Labels` is `none` for the nil map. -/
structure metricSample where
  Name : Str
  Labels : Option (GoMap Str Str)
  Timestamp : Time
  Value : Nat
  deriving DecidableEq, Repr

/-- The four results of `readRecord`. -/
structure RecordResult where
  lfm : Str
  ms : Int
  value : Nat
  err : Option GoError
  deriving DecidableEq, Repr

/-- The function `readRecord`, with the reader as it is left. -/
def readRecord (r : List Byte) : RecordResult × List Byte :=
  match readFull r 2 with
  | (.inr err, r1) =>
    if err = GoError.EOF then (⟨[], 0, 0, some GoError.EOF⟩, r1)
    else (⟨[], 0, 0, some (GoError.wrapped "read lfm length" err)⟩, r1)
  | (.inl lenBuf, r1) =>
    let lfmLen := littleEndian lenBuf
    match readFull r1 lfmLen with
    | (.inr err, r2) => (⟨[], 0, 0, some (GoError.wrapped "read lfm bytes" err)⟩, r2)
    | (.inl lfmBytes, r2) =>
      match readFull r2 8 with
      | (.inr err, r3) => (⟨[], 0, 0, some (GoError.wrapped "read timestamp" err)⟩, r3)
      | (.inl msBuf, r3) =>
        let ms := toInt64 (littleEndian msBuf)
        match readFull r3 8 with
        | (.inr err, r4) => (⟨[], 0, 0, some (GoError.wrapped "read value" err)⟩, r4)
        | (.inl valBuf, r4) =>
          let value := littleEndian valBuf
          (⟨lfmBytes, ms, value, none⟩, r4)

/-- The pair loop of `parseLFM`, `for i := 1; i < len(parts); i += 2`, run on
the parts from index `i` on: `none` is the index-out-of-range panic of
`parts[i+1]`. -/
def pairLoop : List Str → GoMap Str Str → Option (GoMap Str Str)
  | [], labels => some labels
  | [_], _ => none
  | k :: v :: rest, labels => pairLoop rest (mapPut labels k v)

/-- The function `parseLFM`: name, labels (`none` is the nil map) and error;
the outer `none` is a panic. -/
def parseLFM (lfm : Str) : Option (Str × Option (GoMap Str Str) × Option GoError) :=
  let parts := splitNul lfm
  if parts.length % 2 ≠ 1 ∨ parts.length = 0 then
    some ([], none, some (GoError.errorf "invalid lfm format"))
  else
    match pairLoop (parts.drop 1) [] with
    | none => none
    | some labels => some (parts.headD [], some labels, none)

/-- The timestamp a record's millisecond field becomes (lines 35 to 38). -/
def timestampOf (ms : Int) : Time :=
  if ms ≠ 0 then (timeUnix 0 (wrapInt64 (ms * 1000000))).UTC else Time.zero

/-- The loop of `decodeTimeseriesBinary`, at most `fuel` iterations: the two
results of the function, or `none` when the fuel ran out or `parseLFM`
panicked. -/
def decodeLoop : Nat → List Byte → List metricSample →
    Option (Option (List metricSample) × Option GoError)
  | 0, _, _ => none
  | fuel + 1, r, samples =>
    match readRecord r with
    | (rec, r1) =>
      if rec.err = some GoError.EOF then some (some samples, none)
      else if rec.err ≠ none then some (none, rec.err)
      else
        match parseLFM rec.lfm with
        | none => none
        | some (name, labels, err) =>
          if err ≠ none then some (none, err)
          else decodeLoop fuel r1 (samples ++ [⟨name, labels, timestampOf rec.ms, rec.value⟩])

/-- The function `decodeTimeseriesBinary` on a reader holding the bytes `r`:
the sample slice (`none` is nil) and the error (`none` is nil). Every iteration
that goes on consumes at least 18 bytes, so `r.length + 1` iterations are more
than the loop can make. -/
def decodeTimeseriesBinary (r : List Byte) :
    Option (Option (List metricSample) × Option GoError) :=
  decodeLoop (r.length + 1) r []

/-! ## receiver.go: `metricsFromSamples` -/

/-- A `pmetric.NumberDataPoint`: the double value (its bits), the
`pcommon.Timestamp` (unsigned 64-bit nanoseconds since the Unix epoch) and the
attribute map. -/
structure NumberDataPoint where
  value : Nat
  timestamp : Nat
  attributes : GoMap Str Str
  deriving DecidableEq, Repr

/-- A `pmetric.Metric` holding a gauge: its name and the gauge data points. -/
structure Metric where
  name : Str
  dataPoints : List NumberDataPoint
  deriving DecidableEq, Repr

/-- A `pmetric.ScopeMetrics`. -/
structure ScopeMetrics where
  scopeName : String
  metrics : List Metric
  deriving DecidableEq, Repr

/-- A `pmetric.ResourceMetrics`. -/
structure ResourceMetrics where
  scopeMetrics : List ScopeMetrics
  deriving DecidableEq, Repr

/-- The container `pmetric.Metrics`. -/
structure Metrics where
  resourceMetrics : List ResourceMetrics
  deriving DecidableEq, Repr

/-- The function `pcommon.NewTimestampFromTime`: `uint64(t.UnixNano())`. -/
def newTimestampFromTime (t : Time) : Nat := (t.UnixNano % 2 ^ 64).toNat

/-- The calls `metric.Gauge().DataPoints().AppendEmpty()` and the setters on the
new point, for the metric handle `i` (a position in `sm.Metrics()`). -/
def appendPoint : List Metric → Nat → NumberDataPoint → List Metric
  | [], _, _ => []
  | m :: ms, 0, dp => { m with dataPoints := m.dataPoints ++ [dp] } :: ms
  | m :: ms, i + 1, dp => m :: appendPoint ms i dp

/-- The state of the loop of `metricsFromSamples`: the slice `sm.Metrics()`, the
map `metricIndex` (a metric handle is the position of the metric in the slice)
and the number of calls of `time.Now` made so far. -/
structure AsmState where
  metrics : List Metric
  metricIndex : GoMap Str Nat
  reads : Nat
  deriving DecidableEq, Repr

/-- The loop `for key, value := range sample.Labels` with `attrs.PutStr`; the
entries are visited in the order the map model keeps them. -/
def copyLabels (labels : Option (GoMap Str Str)) : GoMap Str Str :=
  (labels.getD []).foldl (fun attrs kv => mapPut attrs kv.1 kv.2) []

/-- The data point lines 131 to 142 build for a sample when `reads` calls of
`time.Now` were made before: value, timestamp (the clock reading for an unset
sample timestamp, the sample's own otherwise) and the copied labels.
`clock k` is what the call number `k` of `time.Now` returns. -/
def pointOf (clock : Nat → Time) (reads : Nat) (sample : metricSample) : NumberDataPoint :=
  ⟨sample.Value,
    if sample.Timestamp.IsZero then newTimestampFromTime (clock reads).UTC
    else newTimestampFromTime sample.Timestamp,
    copyLabels sample.Labels⟩

/-- One iteration of the loop of `metricsFromSamples` (lines 122 to 143). -/
def sampleStep (clock : Nat → Time) (st : AsmState) (sample : metricSample) : AsmState :=
  let found := mapGet st.metricIndex sample.Name
  let metrics1 :=
    match found with
    | some _ => st.metrics
    | none => st.metrics ++ [⟨sample.Name, []⟩]
  let metricIndex1 :=
    match found with
    | some _ => st.metricIndex
    | none => mapPut st.metricIndex sample.Name st.metrics.length
  let metric :=
    match found with
    | some i => i
    | none => st.metrics.length
  let reads1 := if sample.Timestamp.IsZero then st.reads + 1 else st.reads
  ⟨appendPoint metrics1 metric (pointOf clock st.reads sample), metricIndex1, reads1⟩

/-- The function `metricsFromSamples` with the time source `clock`: the
container and the number of calls of `time.Now` it made. -/
def metricsFromSamplesRun (clock : Nat → Time) (samples : List metricSample) : Metrics × Nat :=
  if samples.length = 0 then (⟨[]⟩, 0)
  else
    let st := samples.foldl (sampleStep clock) ⟨[], [], 0⟩
    (⟨[⟨[⟨"do-agent-timeseries", st.metrics⟩]⟩]⟩, st.reads)

/-- The function `metricsFromSamples`. -/
def metricsFromSamples (clock : Nat → Time) (samples : List metricSample) : Metrics :=
  (metricsFromSamplesRun clock samples).1

/-- The series of a container, in order: every metric of every scope of every
resource. -/
def Metrics.series (m : Metrics) : List Metric :=
  (m.resourceMetrics.map (fun rm => (rm.scopeMetrics.map (fun sm => sm.metrics)).flatten)).flatten

/-! ## The wire format and the notions the properties are stated with -/

/-- The `n` low bytes of `x`, least significant first. -/
def leBytes : Nat → Nat → List Byte
  | 0, _ => []
  | n + 1, x => Fin.ofNat (x % 256) :: leBytes n (x / 256)

/-- The fields of one record on the wire: label field, signed milliseconds, and
the bits of the value. -/
structure RawRecord where
  lfm : Str
  ms : Int
  value : Nat
  deriving DecidableEq, Repr

/-- Modelled from the spec: the record layout of section 6 (the repository has a
decoder only): `length(u16, little-endian)`, the label field,
`timestampMillis(i64, little-endian)`, `value(f64 bits, little-endian)`. -/
def encodeRecord (r : RawRecord) : List Byte :=
  leBytes 2 r.lfm.length ++ r.lfm ++ leBytes 8 (r.ms % 2 ^ 64).toNat ++ leBytes 8 r.value

/-- Modelled from the spec: `stream := record*`, the records concatenated with
no terminator. -/
def encodeStream : List RawRecord → List Byte
  | [] => []
  | r :: rs => encodeRecord r ++ encodeStream rs

/-- Sub-fields joined by a single NUL byte. -/
def joinNul : List Str → Str
  | [] => []
  | [p] => p
  | p :: q :: rest => p ++ 0 :: joinNul (q :: rest)

/-- The sub-fields `k1, v1, k2, v2, ...` of a label mapping. -/
def flattenPairs : GoMap Str Str → List Str
  | [] => []
  | (k, v) :: rest => k :: v :: flattenPairs rest

/-- Modelled from the spec: `labelField := name (NUL-separated from) {key NUL value}*`. -/
def labelField (name : Str) (labels : GoMap Str Str) : Str :=
  joinNul (name :: flattenPairs labels)

/-- The fields of a record fit their wire widths. -/
def RawRecord.Fits (r : RawRecord) : Prop :=
  r.lfm.length < 65536 ∧ -(2 ^ 63) ≤ r.ms ∧ r.ms < 2 ^ 63 ∧ r.value < 2 ^ 64

instance (r : RawRecord) : Decidable r.Fits := by
  unfold RawRecord.Fits; infer_instance

/-- A well-formed record: the fields fit and the label field has an odd number
of NUL-separated parts. -/
def RawRecord.WellFormed (r : RawRecord) : Prop :=
  r.Fits ∧ (splitNul r.lfm).length % 2 = 1

instance (r : RawRecord) : Decidable r.WellFormed := by
  unfold RawRecord.WellFormed; infer_instance

/-- The sample lines 30 to 45 of `decodeTimeseriesBinary` build from a record
that was read. -/
def sampleOf (r : RawRecord) : metricSample :=
  match parseLFM r.lfm with
  | some (name, labels, _) => ⟨name, labels, timestampOf r.ms, r.value⟩
  | none => ⟨[], none, timestampOf r.ms, r.value⟩

/-- The distinct names of a list, each at its first occurrence. -/
def firstSeen : List Str → List Str
  | [] => []
  | n :: ns => n :: (firstSeen ns).filter (fun x => decide (x ≠ n))

/-- What holds of the loop state of `metricsFromSamples` after the samples
`ss`: the metric names are the distinct sample names in first-seen order, the
index maps every name to the position of its metric, and the points of each
metric carry value and labels of the samples of that name, in order. -/
def AsmInv (ss : List metricSample) (st : AsmState) : Prop :=
  st.metrics.map (fun m => m.name) = firstSeen (ss.map (fun s => s.Name)) ∧
  (∀ n i, mapGet st.metricIndex n = some i ↔
    (st.metrics.map (fun m => m.name))[i]? = some n) ∧
  (∀ (i : Nat) (m : Metric), st.metrics[i]? = some m →
    m.dataPoints.map (fun dp => (dp.value, dp.attributes)) =
      (ss.filter (fun s => decide (s.Name = m.name))).map
        (fun s => (s.Value, copyLabels s.Labels)))

/-- Two records used as concrete inputs: `m` at 5 ms with value bits 7, and
`a` with the label `k -> v`, timestamp unset, value bits 1. -/
def exampleRecords : List RawRecord :=
  [⟨[109], 5, 7⟩, ⟨[97, 0, 107, 0, 118], 0, 1⟩]

/-- The method `pcommon.Timestamp.AsTime`: `time.Unix(0, int64(ts)).UTC()`, the
time a timestamp of the container stands for. -/
def timestampAsTime (ts : Nat) : Time := (timeUnix 0 (toInt64 ts)).UTC

/-- The number of samples whose timestamp is unset. -/
def countUnset (ss : List metricSample) : Nat :=
  (ss.filter (fun s => s.Timestamp.IsZero)).length

/-- Each sample's name with the data point made for it, in sample order, when
`reads` calls of `time.Now` were made before the first sample: a sample with
an unset timestamp takes the next clock reading, a sample with a set one takes
none. -/
def pointsFrom (clock : Nat → Time) : Nat → List metricSample → List (Str × NumberDataPoint)
  | _, [] => []
  | reads, s :: rest =>
    (s.Name, pointOf clock reads s) ::
      pointsFrom clock (if s.Timestamp.IsZero then reads + 1 else reads) rest

/-- What holds of the loop state of `metricsFromSamples` after the samples
`ss`, for the data points themselves: the clock was read once per unset
sample, and every metric holds the points of the samples of its name, in
order. -/
def AsmPoints (clock : Nat → Time) (ss : List metricSample) (st : AsmState) : Prop :=
  st.reads = countUnset ss ∧
  (∀ (i : Nat) (m : Metric), st.metrics[i]? = some m →
    m.dataPoints =
      ((pointsFrom clock 0 ss).filter (fun p => decide (p.1 = m.name))).map Prod.snd) ∧
  ((st.metrics.map (fun m => m.dataPoints.length)).sum = ss.length)

/-! ## receiver.go: `ServeHTTP` -/

/-- What a call of `ServeHTTP` shows outside: the status written to the
response and the containers passed to `ConsumeMetrics`, in order. -/
structure Response where
  status : Nat
  consumed : List Metrics
  deriving DecidableEq, Repr

/-- The function `strings.HasPrefix` on the characters of two strings. -/
def startsWith : List Char → List Char → Bool
  | _, [] => true
  | [], _ :: _ => false
  | c :: s, d :: p => c == d && startsWith s p

/-- The handler `ServeHTTP` on a request with the given method, URL path and
(decompressed) body. `consume` is the result of `r.next.ConsumeMetrics` (`none`
is the nil error); the statuses are `http.StatusMethodNotAllowed`,
`http.StatusNotFound`, `http.StatusBadRequest`,
`http.StatusInternalServerError` and `http.StatusAccepted`. The result is
`none` when the decoder does not return. -/
def ServeHTTP (clock : Nat → Time) (consume : Metrics → Option GoError)
    (method path : String) (body : List Byte) : Option Response :=
  if method ≠ "POST" then some ⟨405, []⟩
  else if startsWith path.toList "/v1/metrics/".toList = false then some ⟨404, []⟩
  else
    match decodeTimeseriesBinary body with
    | none => none
    | some (samples, err) =>
      if err ≠ none then some ⟨400, []⟩
      else if (samples.getD []).length > 0 then
        let metrics := metricsFromSamples clock (samples.getD [])
        if consume metrics ≠ none then some ⟨500, [metrics]⟩
        else some ⟨202, [metrics]⟩
      else some ⟨202, []⟩

/-- Three samples used as concrete inputs: `a` with the label `k -> v` and an
unset timestamp, `b` at 5 ms, and `a` again with the label `x -> y` at -5 ms. -/
def exampleSamples : List metricSample :=
  [⟨[97], some [([107], [118])], Time.zero, 4607182418800017408⟩,
   ⟨[98], some [], timestampOf 5, 4611686018427387904⟩,
   ⟨[97], some [([120], [121])], timestampOf (-5), 4613937818241073152⟩]

/-- The time as a whole number of nanoseconds since 1970, without the 64-bit
wrap of `Time.UnixNano`. -/
def Time.nanosSinceEpoch (t : Time) : Int :=
  (t.sec - unixToInternal) * 1000000000 + (t.nsec : Int)

/-- A time source that always gives 21 July 2554, 23:34:33.709551616 UTC, the
time `2^64` nanoseconds after 1970. -/
def clock2554 : Nat → Time :=
  fun _ => ⟨709551616, unixToInternal + 18446744073, Loc.localLoc⟩

/-! ## The reader -/

theorem readFull_zero (r : List Byte) : readFull r 0 = (.inl [], r) := by
  simp [readFull]

theorem readFull_ok (r : List Byte) (n : Nat) (h : n ≤ r.length) :
    readFull r n = (.inl (r.take n), r.drop n) := by
  unfold readFull
  by_cases h0 : n = 0
  · subst h0; simp
  · simp [h0, h]

theorem readFull_short (r : List Byte) (n : Nat) (h : r.length < n) :
    ∃ e, readFull r n = (.inr e, []) := by
  unfold readFull
  have h0 : n ≠ 0 := by omega
  have h1 : ¬ n ≤ r.length := by omega
  by_cases hr : r.length = 0
  · exact ⟨GoError.EOF, by simp [h0, h1, hr]⟩
  · exact ⟨GoError.ErrUnexpectedEOF, by simp [h0, h1, hr]⟩

theorem readRecord_ok (s : List Byte) (h2 : 2 ≤ s.length)
    (h : 2 + littleEndian (s.take 2) + 16 ≤ s.length) :
    readRecord s =
      (⟨(s.drop 2).take (littleEndian (s.take 2)),
        toInt64 (littleEndian ((s.drop (2 + littleEndian (s.take 2))).take 8)),
        littleEndian ((s.drop (2 + littleEndian (s.take 2) + 8)).take 8), none⟩,
       s.drop (2 + littleEndian (s.take 2) + 16)) := by
  unfold readRecord
  rw [readFull_ok s 2 h2]
  simp only []
  rw [readFull_ok (s.drop 2) _ (by simp; omega)]
  simp only []
  rw [readFull_ok _ 8 (by simp; omega)]
  simp only []
  rw [readFull_ok _ 8 (by simp; omega)]
  simp only [List.drop_drop]

theorem readFull_append (a b : List Byte) (n : Nat) (h : a.length = n) :
    readFull (a ++ b) n = (.inl a, b) := by
  subst h
  by_cases h0 : a.length = 0
  · have : a = [] := List.length_eq_zero.mp h0
    subst this
    simp [readFull]
  · rw [readFull_ok _ _ (by simp)]
    simp

theorem readRecord_nil : readRecord [] = (⟨[], 0, 0, some GoError.EOF⟩, []) := by
  decide

theorem readRecord_one (b : Byte) :
    readRecord [b] =
      (⟨[], 0, 0, some (GoError.wrapped "read lfm length" GoError.ErrUnexpectedEOF)⟩, []) := by
  simp [readRecord, readFull]

theorem readRecord_trunc (s : List Byte) (h2 : 2 ≤ s.length)
    (h : s.length < 2 + littleEndian (s.take 2) + 16) :
    ∃ msg e, readRecord s = (⟨[], 0, 0, some (GoError.wrapped msg e)⟩, []) := by
  unfold readRecord
  rw [readFull_ok s 2 h2]
  simp only []
  by_cases h3 : littleEndian (s.take 2) ≤ (s.drop 2).length
  · rw [readFull_ok _ _ h3]
    simp only []
    by_cases h4 : 8 ≤ ((s.drop 2).drop (littleEndian (s.take 2))).length
    · rw [readFull_ok _ _ h4]
      simp only []
      obtain ⟨e, he⟩ := readFull_short (((s.drop 2).drop (littleEndian (s.take 2))).drop 8) 8
        (by simp at h3 h4 ⊢; omega)
      rw [he]
      exact ⟨_, _, rfl⟩
    · obtain ⟨e, he⟩ := readFull_short ((s.drop 2).drop (littleEndian (s.take 2))) 8 (by omega)
      rw [he]
      exact ⟨_, _, rfl⟩
  · obtain ⟨e, he⟩ := readFull_short (s.drop 2) (littleEndian (s.take 2)) (by omega)
    rw [he]
    exact ⟨_, _, rfl⟩

theorem length_leBytes (n x : Nat) : (leBytes n x).length = n := by
  induction n generalizing x with
  | zero => rfl
  | succ n ih => simp [leBytes, ih]

theorem littleEndian_leBytes (n x : Nat) : littleEndian (leBytes n x) = x % 256 ^ n := by
  induction n generalizing x with
  | zero => simp [leBytes, littleEndian, Nat.mod_one]
  | succ n ih =>
    simp only [leBytes, littleEndian, ih]
    have h1 : (Fin.ofNat (x % 256) : Fin 256).val = x % 256 := by
      simp [Fin.ofNat]
    rw [h1, pow_succ, Nat.mul_comm (256 ^ n) 256, Nat.mod_mul]

theorem toInt64_encode (ms : Int) (h1 : -(2 ^ 63) ≤ ms) (h2 : ms < 2 ^ 63) :
    toInt64 ((ms % 2 ^ 64).toNat % 256 ^ 8) = ms := by
  unfold toInt64
  have hpow : (256 : Nat) ^ 8 = 2 ^ 64 := by norm_num
  have hnn : 0 ≤ ms % 2 ^ 64 := Int.emod_nonneg _ (by norm_num)
  have hlt : ms % 2 ^ 64 < 2 ^ 64 := Int.emod_lt_of_pos _ (by norm_num)
  have hc : ((ms % 2 ^ 64).toNat : Int) = ms % 2 ^ 64 := Int.toNat_of_nonneg hnn
  have hsmall : (ms % 2 ^ 64).toNat < 2 ^ 64 := by
    have : ((ms % 2 ^ 64).toNat : Int) < ((2 ^ 64 : Nat) : Int) := by rw [hc]; exact_mod_cast hlt
    exact_mod_cast this
  rw [hpow, Nat.mod_eq_of_lt hsmall]
  split
  · rename_i h
    rw [hc]
    have : ((ms % 2 ^ 64).toNat : Int) < 2 ^ 63 := by exact_mod_cast h
    rw [hc] at this
    omega
  · rename_i h
    rw [hc]
    have : ¬ ((ms % 2 ^ 64).toNat : Int) < 2 ^ 63 := by
      intro hh; apply h; exact_mod_cast hh
    rw [hc] at this
    omega

/-! ## Records on the wire -/

theorem readRecord_encode (r : RawRecord) (h : r.Fits) (rest : List Byte) :
    readRecord (encodeRecord r ++ rest) = (⟨r.lfm, r.ms, r.value, none⟩, rest) := by
  obtain ⟨hl, hlo, hhi, hv⟩ := h
  have e : encodeRecord r ++ rest =
      leBytes 2 r.lfm.length ++ (r.lfm ++ (leBytes 8 (r.ms % 2 ^ 64).toNat ++
        (leBytes 8 r.value ++ rest))) := by
    simp [encodeRecord, List.append_assoc]
  rw [e]
  unfold readRecord
  rw [readFull_append _ _ 2 (length_leBytes _ _)]
  simp only []
  have hlen : littleEndian (leBytes 2 r.lfm.length) = r.lfm.length := by
    rw [littleEndian_leBytes]
    exact Nat.mod_eq_of_lt (by norm_num; omega)
  rw [hlen, readFull_append _ _ _ rfl]
  simp only []
  rw [readFull_append _ _ 8 (length_leBytes _ _)]
  simp only []
  rw [readFull_append _ _ 8 (length_leBytes _ _)]
  simp only []
  rw [littleEndian_leBytes, littleEndian_leBytes, toInt64_encode _ hlo hhi]
  have : r.value % 256 ^ 8 = r.value := Nat.mod_eq_of_lt (by norm_num; omega)
  rw [this]

theorem length_encodeRecord (r : RawRecord) :
    (encodeRecord r).length = 2 + r.lfm.length + 16 := by
  simp [encodeRecord, length_leBytes]
  omega

theorem take_two_encodeRecord (r : RawRecord) (rest : List Byte) :
    (encodeRecord r ++ rest).take 2 = leBytes 2 r.lfm.length := by
  have e : encodeRecord r ++ rest =
      leBytes 2 r.lfm.length ++ (r.lfm ++ (leBytes 8 (r.ms % 2 ^ 64).toNat ++
        (leBytes 8 r.value ++ rest))) := by
    simp [encodeRecord, List.append_assoc]
  rw [e, List.take_left' (length_leBytes _ _)]

/-! ## The label-field parser -/

theorem splitNul_ne_nil (s : Str) : splitNul s ≠ [] := by
  induction s with
  | nil => simp [splitNul]
  | cons b bs ih =>
    unfold splitNul
    split
    · simp
    · split <;> simp

theorem mapGet_mapPut_same {κ ν : Type} [DecidableEq κ] (m : GoMap κ ν) (k : κ) (v : ν) :
    mapGet (mapPut m k v) k = some v := by
  induction m with
  | nil => simp [mapPut, mapGet]
  | cons p rest ih =>
    obtain ⟨k1, v1⟩ := p
    by_cases h : k1 = k
    · simp [mapPut, mapGet, h]
    · simp [mapPut, mapGet, h, ih]

theorem mapGet_mapPut_ne {κ ν : Type} [DecidableEq κ] (m : GoMap κ ν) (k k2 : κ) (v : ν)
    (hne : k ≠ k2) : mapGet (mapPut m k v) k2 = mapGet m k2 := by
  induction m with
  | nil => simp [mapPut, mapGet, hne]
  | cons p rest ih =>
    obtain ⟨k1, v1⟩ := p
    by_cases h : k1 = k
    · subst h
      simp [mapPut, mapGet, hne]
    · by_cases h2 : k1 = k2
      · subst h2
        simp [mapPut, mapGet, h]
      · simp [mapPut, mapGet, h, h2, ih]

/-- What the pair loop leaves in the map: a key takes the value that follows its
last occurrence at an even position of `l`, and every other key is untouched. -/
theorem pairLoop_spec (l : List Str) (labels : GoMap Str Str) (h : l.length % 2 = 0) :
    ∃ m, pairLoop l labels = some m ∧
      (∀ i k v, i % 2 = 0 → l[i]? = some k → l[i + 1]? = some v →
        (∀ j, j % 2 = 0 → i < j → l[j]? ≠ some k) → mapGet m k = some v) ∧
      (∀ k, (∀ j, j % 2 = 0 → l[j]? ≠ some k) → mapGet m k = mapGet labels k) := by
  induction l, labels using pairLoop.induct with
  | case1 labels =>
    refine ⟨labels, rfl, ?_, ?_⟩
    · intro i k v _ hk; simp at hk
    · intro k _; rfl
  | case2 x labels => simp at h
  | case3 k v rest labels ih =>
    have hr : rest.length % 2 = 0 := by simp at h; omega
    obtain ⟨m, hm, ha, hb⟩ := ih hr
    refine ⟨m, by simpa [pairLoop] using hm, ?_, ?_⟩
    · intro i k1 v1 hi hk hv hlast
      match i, hi, hk, hv, hlast with
      | 0, _, hk, hv, hlast =>
        simp at hk hv
        subst hk; subst hv
        rw [hb k (fun j hj => by
          have := hlast (j + 2) (by omega) (by omega)
          simpa using this)]
        exact mapGet_mapPut_same _ _ _
      | 1, hi, _, _, _ => omega
      | i + 2, hi, hk, hv, hlast =>
        simp at hk hv
        exact ha i k1 v1 (by omega) hk hv (fun j hj hij => by
          have := hlast (j + 2) (by omega) (by omega)
          simpa using this)
    · intro k1 hk
      rw [hb k1 (fun j hj => by
        have := hk (j + 2) (by omega)
        simpa using this)]
      apply mapGet_mapPut_ne
      have := hk 0 (by omega)
      simpa using this

theorem parseLFM_bad (lfm : Str) (h : (splitNul lfm).length % 2 ≠ 1) :
    parseLFM lfm = some ([], none, some (GoError.errorf "invalid lfm format")) := by
  simp [parseLFM, h]

theorem parseLFM_ok (lfm : Str) (h : (splitNul lfm).length % 2 = 1) :
    ∃ labels, pairLoop ((splitNul lfm).drop 1) [] = some labels ∧
      parseLFM lfm = some ((splitNul lfm).headD [], some labels, none) := by
  have hl : ((splitNul lfm).drop 1).length % 2 = 0 := by
    simp; omega
  obtain ⟨m, hm, -, -⟩ := pairLoop_spec _ [] hl
  refine ⟨m, hm, ?_⟩
  unfold parseLFM
  simp only []
  rw [if_neg (by omega), hm]

/-! ## The decoding loop -/

/-- The three ways `readRecord` can end: clean end of stream on the empty
reader, a wrapped read error, or a record whose reading consumed at least 18
bytes. -/
theorem readRecord_cases (s : List Byte) :
    (s = [] ∧ readRecord s = (⟨[], 0, 0, some GoError.EOF⟩, [])) ∨
    (∃ msg e, readRecord s = (⟨[], 0, 0, some (GoError.wrapped msg e)⟩, [])) ∨
    (∃ lfm ms v r1, readRecord s = (⟨lfm, ms, v, none⟩, r1) ∧ r1.length + 18 ≤ s.length) := by
  match s with
  | [] => exact Or.inl ⟨rfl, readRecord_nil⟩
  | [b] => exact Or.inr (Or.inl ⟨_, _, readRecord_one b⟩)
  | a :: b :: t =>
    have h2 : 2 ≤ (a :: b :: t).length := by simp
    by_cases h : 2 + littleEndian ((a :: b :: t).take 2) + 16 ≤ (a :: b :: t).length
    · right; right
      refine ⟨_, _, _, _, readRecord_ok _ h2 h, ?_⟩
      rw [List.length_drop]
      omega
    · exact Or.inr (Or.inl (readRecord_trunc _ h2 (by omega)))

theorem parseLFM_cases (lfm : Str) :
    parseLFM lfm = some ([], none, some (GoError.errorf "invalid lfm format")) ∨
    ∃ labels, parseLFM lfm = some ((splitNul lfm).headD [], some labels, none) := by
  by_cases h : (splitNul lfm).length % 2 = 1
  · obtain ⟨labels, -, hp⟩ := parseLFM_ok lfm h
    exact Or.inr ⟨labels, hp⟩
  · exact Or.inl (parseLFM_bad lfm h)

theorem decodeLoop_eof (fuel : Nat) (acc : List metricSample) :
    decodeLoop (fuel + 1) [] acc = some (some acc, none) := by
  simp [decodeLoop, readRecord_nil]

theorem decodeLoop_readError (fuel : Nat) (s r1 : List Byte) (acc : List metricSample)
    (msg : String) (e : GoError)
    (h : readRecord s = (⟨[], 0, 0, some (GoError.wrapped msg e)⟩, r1)) :
    decodeLoop (fuel + 1) s acc = some (none, some (GoError.wrapped msg e)) := by
  simp [decodeLoop, h]

theorem sampleOf_wellFormed (r : RawRecord) (h : (splitNul r.lfm).length % 2 = 1) :
    ∃ labels, parseLFM r.lfm = some ((splitNul r.lfm).headD [], some labels, none) ∧
      sampleOf r = ⟨(splitNul r.lfm).headD [], some labels, timestampOf r.ms, r.value⟩ := by
  obtain ⟨labels, -, hp⟩ := parseLFM_ok r.lfm h
  exact ⟨labels, hp, by simp [sampleOf, hp]⟩

theorem decodeLoop_record (fuel : Nat) (r : RawRecord) (h : r.WellFormed) (rest : List Byte)
    (acc : List metricSample) :
    decodeLoop (fuel + 1) (encodeRecord r ++ rest) acc =
      decodeLoop fuel rest (acc ++ [sampleOf r]) := by
  obtain ⟨labels, hp, hs⟩ := sampleOf_wellFormed r h.2
  simp [decodeLoop, readRecord_encode r h.1, hp, hs]

theorem decodeLoop_malformed (fuel : Nat) (r : RawRecord) (h : r.Fits)
    (hbad : (splitNul r.lfm).length % 2 ≠ 1) (rest : List Byte) (acc : List metricSample) :
    decodeLoop (fuel + 1) (encodeRecord r ++ rest) acc =
      some (none, some (GoError.errorf "invalid lfm format")) := by
  simp [decodeLoop, readRecord_encode r h, parseLFM_bad r.lfm hbad]

theorem decodeLoop_stream (recs : List RawRecord) (h : ∀ r ∈ recs, r.WellFormed)
    (fuel : Nat) (rest : List Byte) (acc : List metricSample) :
    decodeLoop (recs.length + fuel) (encodeStream recs ++ rest) acc =
      decodeLoop fuel rest (acc ++ recs.map sampleOf) := by
  induction recs generalizing acc with
  | nil => simp [encodeStream]
  | cons r rs ih =>
    have hr : r.WellFormed := h r (by simp)
    have hrs : ∀ x ∈ rs, x.WellFormed := fun x hx => h x (by simp [hx])
    have e : (r :: rs).length + fuel = (rs.length + fuel) + 1 := by simp; omega
    rw [e]
    simp only [encodeStream, List.append_assoc]
    rw [decodeLoop_record _ r hr, ih hrs]
    simp

theorem length_encodeStream_ge (recs : List RawRecord) :
    18 * recs.length ≤ (encodeStream recs).length := by
  induction recs with
  | nil => simp [encodeStream]
  | cons r rs ih =>
    simp [encodeStream, length_encodeRecord]
    omega

/-- With enough fuel the loop returns, and what it returns is either samples
and no error or an error and no samples. -/
theorem decodeLoop_total (fuel : Nat) (s : List Byte) (acc : List metricSample)
    (h : s.length < 18 * fuel) :
    ∃ res, decodeLoop fuel s acc = some res ∧
      ((∃ l, res = (some l, none)) ∨ (∃ e, res = (none, some e))) := by
  induction fuel generalizing s acc with
  | zero => omega
  | succ fuel ih =>
    rcases readRecord_cases s with ⟨hs, _⟩ | ⟨msg, e, hr⟩ | ⟨lfm, ms, v, r1, hr, hlen⟩
    · subst hs
      exact ⟨_, decodeLoop_eof fuel acc, Or.inl ⟨_, rfl⟩⟩
    · exact ⟨_, decodeLoop_readError fuel s [] acc msg e hr, Or.inr ⟨_, rfl⟩⟩
    · rcases parseLFM_cases lfm with hp | ⟨labels, hp⟩
      · refine ⟨(none, some (GoError.errorf "invalid lfm format")), ?_, Or.inr ⟨_, rfl⟩⟩
        simp [decodeLoop, hr, hp]
      · obtain ⟨res, h1, h2⟩ := ih r1
          (acc ++ [⟨(splitNul lfm).headD [], some labels, timestampOf ms, v⟩]) (by omega)
        refine ⟨res, ?_, h2⟩
        simp only [decodeLoop, hr, hp]
        simpa using h1

/-! ## Truncation -/

theorem readRecord_truncated_record (r : RawRecord) (hl : r.lfm.length < 65536) (n : Nat)
    (h0 : 0 < n) (hn : n < (encodeRecord r).length) :
    ∃ msg e, readRecord ((encodeRecord r).take n) =
      (⟨[], 0, 0, some (GoError.wrapped msg e)⟩, []) := by
  have hlen : ((encodeRecord r).take n).length = n := by
    rw [List.length_take]; omega
  by_cases h1 : n = 1
  · subst h1
    match hs : (encodeRecord r).take 1, hlen with
    | [b], _ => exact ⟨_, _, readRecord_one b⟩
  · apply readRecord_trunc
    · omega
    · have ht : ((encodeRecord r).take n).take 2 = leBytes 2 r.lfm.length := by
        rw [List.take_take, Nat.min_eq_left (by omega)]
        have := take_two_encodeRecord r []
        simpa using this
      rw [ht, littleEndian_leBytes, Nat.mod_eq_of_lt (by norm_num; omega), hlen]
      rw [length_encodeRecord] at hn
      exact hn

/-- A cut that is not at a record boundary leaves some complete records and a
proper, non-empty piece of the next one. -/
theorem take_encodeStream (recs : List RawRecord) (n : Nat)
    (hn : n < (encodeStream recs).length)
    (hb : ∀ k, k ≤ recs.length → n ≠ (encodeStream (recs.take k)).length) :
    ∃ pre r post j, recs = pre ++ r :: post ∧ 0 < j ∧ j < (encodeRecord r).length ∧
      (encodeStream recs).take n = encodeStream pre ++ (encodeRecord r).take j := by
  induction recs generalizing n with
  | nil => simp [encodeStream] at hn
  | cons r rs ih =>
    have h0 : n ≠ 0 := by
      have := hb 0 (by simp)
      simpa [encodeStream] using this
    have h1 : n ≠ (encodeRecord r).length := by
      have := hb 1 (by simp)
      simpa [encodeStream] using this
    by_cases hlt : n < (encodeRecord r).length
    · refine ⟨[], r, rs, n, rfl, by omega, hlt, ?_⟩
      simp only [encodeStream, List.nil_append]
      rw [List.take_append_of_le_length (by omega)]
    · have hn2 : n - (encodeRecord r).length < (encodeStream rs).length := by
        simp only [encodeStream, List.length_append] at hn
        omega
      have hb2 : ∀ k, k ≤ rs.length →
          n - (encodeRecord r).length ≠ (encodeStream (rs.take k)).length := by
        intro k hk heq
        apply hb (k + 1) (by simp; omega)
        simp only [List.take_succ_cons, encodeStream, List.length_append]
        omega
      obtain ⟨pre, x, post, j, hrec, hj0, hj, htake⟩ := ih _ hn2 hb2
      refine ⟨r :: pre, x, post, j, by simp [hrec], hj0, hj, ?_⟩
      simp only [encodeStream]
      rw [List.take_append_eq_append_take, List.take_of_length_le (by omega), htake,
        List.append_assoc]

theorem decode_stream_then (recs : List RawRecord) (h : ∀ r ∈ recs, r.WellFormed)
    (rest : List Byte) :
    decodeTimeseriesBinary (encodeStream recs ++ rest) =
      decodeLoop ((encodeStream recs ++ rest).length + 1 - recs.length) rest
        (recs.map sampleOf) := by
  unfold decodeTimeseriesBinary
  have hge := length_encodeStream_ge recs
  have e : (encodeStream recs ++ rest).length + 1 =
      recs.length + ((encodeStream recs ++ rest).length + 1 - recs.length) := by
    simp only [List.length_append]
    omega
  conv => lhs; rw [e]
  rw [decodeLoop_stream recs h]
  simp

theorem fuel_after_stream (recs : List RawRecord) (rest : List Byte) :
    ∃ f, (encodeStream recs ++ rest).length + 1 - recs.length = f + 1 := by
  have hge := length_encodeStream_ge recs
  refine ⟨(encodeStream recs ++ rest).length - recs.length, ?_⟩
  simp only [List.length_append]
  omega

theorem length_splitNul (s : Str) : (splitNul s).length = s.count 0 + 1 := by
  induction s with
  | nil => simp [splitNul]
  | cons b bs ih =>
    unfold splitNul
    by_cases hb : b = 0
    · subst hb
      simp [ih]
    · rw [if_neg hb]
      have hc : (b :: bs).count 0 = bs.count 0 := by
        rw [List.count_cons]
        simp [hb]
      rw [hc, ← ih]
      split
      · rename_i heq
        exact absurd heq (splitNul_ne_nil bs)
      · rename_i p ps heq
        simp [heq]

/-! ## Properties of the decoder -/

/-- C2: cutting the concatenation of well-formed records at an offset that is
inside the stream and not at a record boundary makes `decodeTimeseriesBinary`
return a (wrapped read) error and the nil sample slice. -/
theorem decode_truncated_is_error (recs : List RawRecord) (h : ∀ r ∈ recs, r.WellFormed)
    (n : Nat) (hn : n < (encodeStream recs).length)
    (hb : ∀ k, k ≤ recs.length → n ≠ (encodeStream (recs.take k)).length) :
    ∃ msg e, decodeTimeseriesBinary ((encodeStream recs).take n) =
      some (none, some (GoError.wrapped msg e)) := by
  obtain ⟨pre, r, post, j, hrec, hj0, hj, htake⟩ := take_encodeStream recs n hn hb
  have hpre : ∀ x ∈ pre, x.WellFormed := fun x hx => h x (by simp [hrec, hx])
  have hr : r.WellFormed := h r (by simp [hrec])
  obtain ⟨msg, e, hread⟩ := readRecord_truncated_record r hr.1.1 j hj0 hj
  obtain ⟨f, hf⟩ := fuel_after_stream pre ((encodeRecord r).take j)
  refine ⟨msg, e, ?_⟩
  rw [htake, decode_stream_then pre hpre, hf]
  exact decodeLoop_readError f _ [] _ msg e hread

/-- Witness of C2: the two example records cut at byte 25, six bytes into the
second record. -/
theorem decode_truncated_is_error_witness :
    ∃ msg e, decodeTimeseriesBinary ((encodeStream exampleRecords).take 25) =
      some (none, some (GoError.wrapped msg e)) :=
  decode_truncated_is_error exampleRecords (by decide) 25 (by decide) (by decide)

/-- C3: the concatenation of `N` well-formed records decodes, without error, to
`N` samples, the sample at each position being the one the record at that
position decodes to on its own; the empty stream decodes to the empty, non-nil
sample slice. -/
theorem decode_clean_stream (recs : List RawRecord) (h : ∀ r ∈ recs, r.WellFormed) :
    decodeTimeseriesBinary (encodeStream recs) = some (some (recs.map sampleOf), none) ∧
    (recs.map sampleOf).length = recs.length ∧
    (∀ r ∈ recs, decodeTimeseriesBinary (encodeRecord r) = some (some [sampleOf r], none)) ∧
    decodeTimeseriesBinary [] = some (some [], none) := by
  have key : ∀ rs : List RawRecord, (∀ r ∈ rs, r.WellFormed) →
      decodeTimeseriesBinary (encodeStream rs) = some (some (rs.map sampleOf), none) := by
    intro rs hrs
    have := decode_stream_then rs hrs []
    rw [List.append_nil] at this
    obtain ⟨f, hf⟩ := fuel_after_stream rs []
    rw [List.append_nil] at hf
    rw [this, hf, decodeLoop_eof]
  refine ⟨key recs h, by simp, ?_, by decide⟩
  intro r hr
  have := key [r] (by simpa using h r hr)
  simpa [encodeStream] using this

/-- Witness of C3: the two example records. -/
theorem decode_clean_stream_witness :
    decodeTimeseriesBinary (encodeStream exampleRecords) =
        some (some (exampleRecords.map sampleOf), none) ∧
    (exampleRecords.map sampleOf).length = exampleRecords.length ∧
    (∀ r ∈ exampleRecords,
      decodeTimeseriesBinary (encodeRecord r) = some (some [sampleOf r], none)) ∧
    decodeTimeseriesBinary [] = some (some [], none) :=
  decode_clean_stream exampleRecords (by decide)

/-- C4, the code at a record with `L = 0`: `parseLFM` accepts the empty label
field with the empty name and no labels, and `decodeTimeseriesBinary` returns a
sample with the empty name and no error. -/
theorem decode_empty_label_field_accepted :
    parseLFM [] = some ([], some [], none) ∧
    decodeTimeseriesBinary ([0, 0] ++ [5, 0, 0, 0, 0, 0, 0, 0] ++ [7, 0, 0, 0, 0, 0, 0, 0]) =
      some (some [⟨[], some [], timestampOf 5, 7⟩], none) := by
  constructor <;> decide

/-- C6: `parseLFM` succeeds exactly when splitting the field on NUL gives an odd
number of parts, at least one (the number of parts is one more than the number
of NUL bytes); otherwise it returns the empty name, the nil map and the
invalid-label-field error, as it does on `"m\x00k"`. -/
theorem parseLFM_accepts_iff_odd (lfm : Str) :
    ((∃ name labels, parseLFM lfm = some (name, labels, none)) ↔
      ((splitNul lfm).length % 2 = 1 ∧ 1 ≤ (splitNul lfm).length)) ∧
    ((∃ name labels, parseLFM lfm = some (name, labels, none)) ∨
      parseLFM lfm = some ([], none, some (GoError.errorf "invalid lfm format"))) ∧
    (splitNul lfm).length = lfm.count 0 + 1 ∧
    (splitNul [109, 0, 107]).length = 2 ∧
    parseLFM [109, 0, 107] = some ([], none, some (GoError.errorf "invalid lfm format")) := by
  refine ⟨⟨?_, ?_⟩, ?_, length_splitNul lfm, by decide, by decide⟩
  · rintro ⟨name, labels, h⟩
    by_cases hodd : (splitNul lfm).length % 2 = 1
    · exact ⟨hodd, by omega⟩
    · rw [parseLFM_bad lfm hodd] at h
      simp at h
  · rintro ⟨hodd, -⟩
    obtain ⟨labels, -, hp⟩ := parseLFM_ok lfm hodd
    exact ⟨_, _, hp⟩
  · rcases parseLFM_cases lfm with h | ⟨labels, h⟩
    · exact Or.inr h
    · exact Or.inl ⟨_, _, h⟩

/-- C7: when `parseLFM` accepts a field, the name is part 0, a key at an odd
position with no later odd position holding the same key maps to the part
that follows it, a key at no odd position is absent, and
`"m\x00k\x00v1\x00k\x00v2"` parses to the name `m` with the one label
`k -> v2`. -/
theorem parseLFM_last_write_wins (lfm name : Str) (labels : Option (GoMap Str Str))
    (h : parseLFM lfm = some (name, labels, none)) :
    (splitNul lfm)[0]? = some name ∧
    (∃ m, labels = some m ∧
      (∀ i k v, i % 2 = 1 → (splitNul lfm)[i]? = some k → (splitNul lfm)[i + 1]? = some v →
        (∀ j, j % 2 = 1 → i < j → (splitNul lfm)[j]? ≠ some k) → mapGet m k = some v) ∧
      (∀ k, (∀ j, j % 2 = 1 → (splitNul lfm)[j]? ≠ some k) → mapGet m k = none)) ∧
    parseLFM [109, 0, 107, 0, 118, 49, 0, 107, 0, 118, 50] =
      some ([109], some [([107], [118, 50])], none) := by
  have hodd : (splitNul lfm).length % 2 = 1 := by
    by_contra hodd
    rw [parseLFM_bad lfm hodd] at h
    simp at h
  have hl : ((splitNul lfm).drop 1).length % 2 = 0 := by
    simp; omega
  obtain ⟨m, hm, ha, hb⟩ := pairLoop_spec _ [] hl
  obtain ⟨m2, hm2, hp⟩ := parseLFM_ok lfm hodd
  rw [hm] at hm2
  cases hm2
  rw [hp] at h
  simp only [Option.some.injEq, Prod.mk.injEq, and_true] at h
  obtain ⟨hname, hlabels⟩ := h
  refine ⟨?_, ⟨m, hlabels.symm, ?_, ?_⟩, by decide⟩
  · rw [← hname]
    cases hs : splitNul lfm with
    | nil => exact absurd hs (splitNul_ne_nil lfm)
    | cons p ps => simp
  · intro i k v hi hk hv hlast
    obtain ⟨i0, rfl⟩ : ∃ i0, i = i0 + 1 := ⟨i - 1, by omega⟩
    apply ha i0 k v (by omega)
    · rw [List.getElem?_drop, Nat.add_comm]; exact hk
    · rw [List.getElem?_drop]
      have e : 1 + (i0 + 1) = i0 + 1 + 1 := by omega
      rw [e]; exact hv
    · intro j hj hij
      rw [List.getElem?_drop, Nat.add_comm]
      exact hlast (j + 1) (by omega) (by omega)
  · intro k hk
    rw [hb k]
    · rfl
    · intro j hj
      rw [List.getElem?_drop, Nat.add_comm]
      exact hk (j + 1) (by omega)

/-- Witness of C7: the field `"m\x00k\x00v1\x00k\x00v2"`. -/
theorem parseLFM_last_write_wins_witness :
    (splitNul [109, 0, 107, 0, 118, 49, 0, 107, 0, 118, 50])[0]? = some [109] ∧
    (∃ m, some [(([107] : Str), ([118, 50] : Str))] = some m ∧
      (∀ i k v, i % 2 = 1 →
        (splitNul [109, 0, 107, 0, 118, 49, 0, 107, 0, 118, 50])[i]? = some k →
        (splitNul [109, 0, 107, 0, 118, 49, 0, 107, 0, 118, 50])[i + 1]? = some v →
        (∀ j, j % 2 = 1 → i < j →
          (splitNul [109, 0, 107, 0, 118, 49, 0, 107, 0, 118, 50])[j]? ≠ some k) →
        mapGet m k = some v) ∧
      (∀ k, (∀ j, j % 2 = 1 →
          (splitNul [109, 0, 107, 0, 118, 49, 0, 107, 0, 118, 50])[j]? ≠ some k) →
        mapGet m k = none)) ∧
    parseLFM [109, 0, 107, 0, 118, 49, 0, 107, 0, 118, 50] =
      some ([109], some [([107], [118, 50])], none) :=
  parseLFM_last_write_wins [109, 0, 107, 0, 118, 49, 0, 107, 0, 118, 50] [109]
    (some [([107], [118, 50])]) (by decide)

/-- C8: on every byte stream `decodeTimeseriesBinary` returns either a sample
slice and the nil error or the nil slice and an error; after any number of
well-formed records, a truncated record gives the nil slice and an error, and
so does a complete record whose label field has an even number of parts,
whatever follows it. -/
theorem decode_all_or_nothing (s : List Byte) (recs : List RawRecord) (r bad : RawRecord)
    (n : Nat) (rest : List Byte) (h : ∀ x ∈ recs, x.WellFormed) (hr : r.Fits)
    (h0 : 0 < n) (hn : n < (encodeRecord r).length) (hfits : bad.Fits)
    (hbad : (splitNul bad.lfm).length % 2 ≠ 1) :
    (∃ res, decodeTimeseriesBinary s = some res ∧
      ((∃ l, res = (some l, none)) ∨ (∃ e, res = (none, some e)))) ∧
    (∃ e, decodeTimeseriesBinary (encodeStream recs ++ (encodeRecord r).take n) =
      some (none, some e)) ∧
    decodeTimeseriesBinary (encodeStream recs ++ (encodeRecord bad ++ rest)) =
      some (none, some (GoError.errorf "invalid lfm format")) := by
  refine ⟨decodeLoop_total _ s [] (by omega), ?_, ?_⟩
  · obtain ⟨msg, e, hread⟩ := readRecord_truncated_record r hr.1 n h0 hn
    obtain ⟨f, hf⟩ := fuel_after_stream recs ((encodeRecord r).take n)
    refine ⟨GoError.wrapped msg e, ?_⟩
    rw [decode_stream_then recs h, hf]
    exact decodeLoop_readError f _ [] _ msg e hread
  · obtain ⟨f, hf⟩ := fuel_after_stream recs (encodeRecord bad ++ rest)
    rw [decode_stream_then recs h, hf]
    exact decodeLoop_malformed f bad hfits hbad rest _

/-- Witness of C8: the stream `[1]`; the two example records followed by the
first 4 bytes of a record; the two example records followed by a record with
the two-part label field `"m\x00k"` and one more byte. -/
theorem decode_all_or_nothing_witness :
    (∃ res, decodeTimeseriesBinary [1] = some res ∧
      ((∃ l, res = (some l, none)) ∨ (∃ e, res = (none, some e)))) ∧
    (∃ e, decodeTimeseriesBinary
        (encodeStream exampleRecords ++ (encodeRecord ⟨[109], 5, 7⟩).take 4) =
      some (none, some e)) ∧
    decodeTimeseriesBinary
        (encodeStream exampleRecords ++ (encodeRecord ⟨[109, 0, 107], 5, 7⟩ ++ [9])) =
      some (none, some (GoError.errorf "invalid lfm format")) :=
  decode_all_or_nothing [1] exampleRecords ⟨[109], 5, 7⟩ ⟨[109, 0, 107], 5, 7⟩ 4 [9]
    (by decide) (by decide) (by decide) (by decide) (by decide) (by decide)

/-! ## Round trip -/

theorem splitNul_noNul (p : Str) (h : (0 : Byte) ∉ p) : splitNul p = [p] := by
  induction p with
  | nil => rfl
  | cons b bs ih =>
    have hb : b ≠ 0 := fun hb => h (by simp [hb])
    have hbs : (0 : Byte) ∉ bs := fun hbs => h (by simp [hbs])
    simp [splitNul, hb, ih hbs]

theorem splitNul_append_nul (p t : Str) (h : (0 : Byte) ∉ p) :
    splitNul (p ++ 0 :: t) = p :: splitNul t := by
  induction p with
  | nil => simp [splitNul]
  | cons b bs ih =>
    have hb : b ≠ 0 := fun hb => h (by simp [hb])
    have hbs : (0 : Byte) ∉ bs := fun hbs => h (by simp [hbs])
    simp [splitNul, hb, ih hbs]

theorem splitNul_joinNul (parts : List Str) (hne : parts ≠ [])
    (h : ∀ p ∈ parts, (0 : Byte) ∉ p) : splitNul (joinNul parts) = parts := by
  induction parts with
  | nil => exact absurd rfl hne
  | cons p rest ih =>
    cases rest with
    | nil => simpa [joinNul] using splitNul_noNul p (h p (by simp))
    | cons q rest =>
      simp only [joinNul]
      rw [splitNul_append_nul _ _ (h p (by simp)), ih (by simp) (fun x hx => h x (by simp [hx]))]

theorem mapPut_fresh (m : GoMap Str Str) (k v : Str) (h : k ∉ m.map Prod.fst) :
    mapPut m k v = m ++ [(k, v)] := by
  induction m with
  | nil => rfl
  | cons p rest ih =>
    obtain ⟨k1, v1⟩ := p
    have h1 : k1 ≠ k := fun e => h (by simp [e])
    have h2 : k ∉ rest.map Prod.fst := fun e => h (by simp at e ⊢; exact Or.inr e)
    simp [mapPut, h1, ih h2]

theorem pairLoop_flattenPairs (labels m : GoMap Str Str)
    (hnd : (labels.map Prod.fst).Nodup)
    (hdis : ∀ k ∈ labels.map Prod.fst, k ∉ m.map Prod.fst) :
    pairLoop (flattenPairs labels) m = some (m ++ labels) := by
  induction labels generalizing m with
  | nil => simp [flattenPairs, pairLoop]
  | cons p rest ih =>
    obtain ⟨k, v⟩ := p
    simp only [List.map_cons, List.nodup_cons] at hnd
    simp only [flattenPairs, pairLoop]
    rw [mapPut_fresh m k v (hdis k (by simp)), ih _ hnd.2]
    · simp
    · intro k2 hk2
      simp only [List.map_append, List.map_cons, List.map_nil, List.mem_append,
        List.mem_singleton, not_or]
      refine ⟨hdis k2 (by simp [hk2]), ?_⟩
      rintro rfl
      exact hnd.1 hk2

theorem flattenPairs_noNul (labels : GoMap Str Str)
    (hl0 : ∀ kv ∈ labels, (0 : Byte) ∉ kv.1 ∧ (0 : Byte) ∉ kv.2) :
    ∀ p ∈ flattenPairs labels, (0 : Byte) ∉ p := by
  induction labels with
  | nil => simp [flattenPairs]
  | cons q rest ih =>
    obtain ⟨k, v⟩ := q
    intro p hp
    simp only [flattenPairs, List.mem_cons] at hp
    rcases hp with rfl | rfl | hp
    · exact (hl0 (p, v) (by simp)).1
    · exact (hl0 (k, p) (by simp)).2
    · exact ih (fun kv hkv => hl0 kv (by simp [hkv])) p hp

theorem length_flattenPairs (labels : GoMap Str Str) :
    (flattenPairs labels).length = 2 * labels.length := by
  induction labels with
  | nil => rfl
  | cons q rest ih =>
    obtain ⟨k, v⟩ := q
    simp [flattenPairs, ih]; omega

theorem parseLFM_labelField (name : Str) (labels : GoMap Str Str)
    (hn0 : (0 : Byte) ∉ name) (hl0 : ∀ kv ∈ labels, (0 : Byte) ∉ kv.1 ∧ (0 : Byte) ∉ kv.2)
    (hmap : (labels.map Prod.fst).Nodup) :
    (splitNul (labelField name labels)).length % 2 = 1 ∧
      parseLFM (labelField name labels) = some (name, some labels, none) := by
  have hparts : ∀ p ∈ name :: flattenPairs labels, (0 : Byte) ∉ p := by
    intro p hp
    rcases List.mem_cons.mp hp with rfl | hp
    · exact hn0
    · exact flattenPairs_noNul labels hl0 p hp
  have hsplit : splitNul (labelField name labels) = name :: flattenPairs labels :=
    splitNul_joinNul _ (by simp) hparts
  have hodd : (splitNul (labelField name labels)).length % 2 = 1 := by
    rw [hsplit]; simp [length_flattenPairs]; omega
  refine ⟨hodd, ?_⟩
  obtain ⟨m, hm, hp⟩ := parseLFM_ok _ hodd
  rw [hsplit] at hm hp
  simp only [List.drop_one, List.tail_cons] at hm
  rw [pairLoop_flattenPairs labels [] hmap (by simp)] at hm
  simp only [List.nil_append, Option.some.injEq] at hm
  rw [hp, ← hm]
  simp

/-- C1: one record built from a non-empty name, a label mapping, a signed
64-bit timestamp and 64 value bits, with no NUL byte in name, keys or values
and a label field of at most 65535 bytes, decodes without error to exactly one
sample with that name, that label mapping and those value bits. -/
theorem decode_round_trip (name : Str) (labels : GoMap Str Str) (ms : Int) (value : Nat)
    (hname : name ≠ []) (hn0 : (0 : Byte) ∉ name)
    (hl0 : ∀ kv ∈ labels, (0 : Byte) ∉ kv.1 ∧ (0 : Byte) ∉ kv.2)
    (hmap : (labels.map Prod.fst).Nodup)
    (hlen : (labelField name labels).length ≤ 65535)
    (hlo : -(2 ^ 63) ≤ ms) (hhi : ms < 2 ^ 63) (hv : value < 2 ^ 64) :
    decodeTimeseriesBinary (encodeRecord ⟨labelField name labels, ms, value⟩) =
      some (some [⟨name, some labels, timestampOf ms, value⟩], none) := by
  have _ := hname
  obtain ⟨hodd, hp⟩ := parseLFM_labelField name labels hn0 hl0 hmap
  have hwf : (RawRecord.mk (labelField name labels) ms value).WellFormed :=
    ⟨⟨by simp only; omega, hlo, hhi, hv⟩, hodd⟩
  have := decode_stream_then [⟨labelField name labels, ms, value⟩]
    (by simpa using hwf) []
  simp only [encodeStream, List.append_nil] at this
  rw [this]
  simp only [List.length_singleton, Nat.add_sub_cancel, List.map_cons, List.map_nil]
  have hs : sampleOf ⟨labelField name labels, ms, value⟩ =
      ⟨name, some labels, timestampOf ms, value⟩ := by
    simp [sampleOf, hp]
  rw [hs]
  have hpos : (encodeRecord ⟨labelField name labels, ms, value⟩).length =
      ((encodeRecord ⟨labelField name labels, ms, value⟩).length - 1) + 1 := by
    rw [length_encodeRecord]; omega
  rw [hpos, decodeLoop_eof]

/-- Witness of C1: the name `m`, the labels `k -> v` and `a -> b`, the
timestamp -5 ms and the value bits of 1.0. -/
theorem decode_round_trip_witness :
    decodeTimeseriesBinary
        (encodeRecord ⟨labelField [109] [([107], [118]), ([97], [98])], -5,
          4607182418800017408⟩) =
      some (some [⟨[109], some [([107], [118]), ([97], [98])], timestampOf (-5),
        4607182418800017408⟩], none) :=
  decode_round_trip [109] [([107], [118]), ([97], [98])] (-5) 4607182418800017408
    (by decide) (by decide) (by decide) (by decide) (by decide) (by decide) (by decide)
    (by decide)

/-! ## Timestamps -/

theorem wrapInt64_of_range (x : Int) (h1 : -(2 ^ 63) ≤ x) (h2 : x < 2 ^ 63) :
    wrapInt64 x = x := by
  unfold wrapInt64
  omega

theorem wrapInt64_range (x : Int) : -(2 ^ 63) ≤ wrapInt64 x ∧ wrapInt64 x < 2 ^ 63 := by
  unfold wrapInt64
  omega

theorem tdiv_cases (a : Int) :
    (0 ≤ a ∧ Int.tdiv a 1000000000 = a / 1000000000) ∨
    (a < 0 ∧ Int.tdiv a 1000000000 = -((-a) / 1000000000)) := by
  by_cases h : 0 ≤ a
  · exact Or.inl ⟨h, Int.tdiv_eq_ediv h (by norm_num)⟩
  · right
    refine ⟨by omega, ?_⟩
    have h1 : a = -(-a) := by omega
    conv => lhs; rw [h1, Int.neg_tdiv]
    rw [Int.tdiv_eq_ediv (by omega) (by norm_num)]

/-- The time `time.Unix(0, n)` for an `int64` number `n`: its nanosecond field
is below one second, and second and nanosecond fields add up to `n`
nanoseconds after 1970. -/
theorem timeUnix_spec (n : Int) (h1 : -(2 ^ 63) ≤ n) (h2 : n < 2 ^ 63) :
    ∃ q r : Int, 0 ≤ r ∧ r < 1000000000 ∧ q * 1000000000 + r = n ∧
      timeUnix 0 n = ⟨r.toNat, q + unixToInternal, Loc.localLoc⟩ := by
  have hu : unixToInternal = 62135596800 := by decide
  unfold timeUnix
  rw [hu]
  by_cases hc : n < 0 ∨ n ≥ 1000000000
  · rw [if_pos hc]
    simp only [Int.zero_add]
    rcases tdiv_cases n with ⟨hn, hd⟩ | ⟨hn, hd⟩
    · rw [hd]
      have hq : wrapInt64 (n / 1000000000) = n / 1000000000 :=
        wrapInt64_of_range _ (by omega) (by omega)
      rw [hq, if_neg (by omega)]
      refine ⟨n / 1000000000, n - n / 1000000000 * 1000000000, by omega, by omega, by omega, ?_⟩
      rw [wrapInt64_of_range _ (by omega) (by omega)]
    · rw [hd]
      have hq : wrapInt64 (-(-n / 1000000000)) = -(-n / 1000000000) :=
        wrapInt64_of_range _ (by omega) (by omega)
      rw [hq]
      by_cases hneg : n - -(-n / 1000000000) * 1000000000 < 0
      · rw [if_pos hneg]
        refine ⟨-(-n / 1000000000) - 1, n - -(-n / 1000000000) * 1000000000 + 1000000000,
          by omega, by omega, by omega, ?_⟩
        rw [wrapInt64_of_range (-(-n / 1000000000) - 1) (by omega) (by omega),
          wrapInt64_of_range _ (by omega) (by omega)]
      · rw [if_neg hneg]
        refine ⟨-(-n / 1000000000), n - -(-n / 1000000000) * 1000000000,
          by omega, by omega, by omega, ?_⟩
        rw [wrapInt64_of_range _ (by omega) (by omega)]
  · rw [if_neg hc]
    refine ⟨0, n, by omega, by omega, by omega, ?_⟩
    rw [wrapInt64_of_range _ (by omega) (by omega)]

theorem timeUnix_not_zero (n : Int) (h1 : -(2 ^ 63) ≤ n) (h2 : n < 2 ^ 63) :
    (timeUnix 0 n).UTC.IsZero = false := by
  obtain ⟨q, r, hr0, hr1, hqr, ht⟩ := timeUnix_spec n h1 h2
  have hu : unixToInternal = 62135596800 := by decide
  rw [ht, hu]
  simp only [Time.UTC, Time.IsZero]
  have : q + 62135596800 ≠ 0 := by omega
  simp [this]

theorem timestampOf_isZero (ms : Int) : (timestampOf ms).IsZero = true ↔ ms = 0 := by
  unfold timestampOf
  by_cases h : ms = 0
  · subst h
    simp [Time.zero, Time.IsZero]
  · rw [if_pos h]
    have hr := wrapInt64_range (ms * 1000000)
    rw [timeUnix_not_zero _ hr.1 hr.2]
    simp [h]

theorem decode_one_record (r : RawRecord) (h : r.WellFormed) :
    decodeTimeseriesBinary (encodeRecord r) = some (some [sampleOf r], none) := by
  have := decode_stream_then [r] (by simpa using h) []
  simp only [encodeStream, List.append_nil] at this
  rw [this]
  obtain ⟨f, hf⟩ := fuel_after_stream [r] []
  simp only [encodeStream, List.append_nil] at hf
  rw [hf, decodeLoop_eof]
  simp

theorem timestamp_sampleOf (r : RawRecord) (h : r.WellFormed) :
    (sampleOf r).Timestamp = timestampOf r.ms := by
  obtain ⟨labels, -, hs⟩ := sampleOf_wellFormed r h.2
  rw [hs]

theorem wrapInt64_add_left (x y : Int) : wrapInt64 (wrapInt64 x + y) = wrapInt64 (x + y) := by
  unfold wrapInt64
  omega

/-- Inside the range in which the product `ms * 1000000` fits an `int64`, the
timestamp of a nonzero field is the UTC time `ms` milliseconds after 1970. -/
theorem timestampOf_exact (ms : Int) (h0 : ms ≠ 0) (hlo : -(2 ^ 63) ≤ ms * 1000000)
    (hhi : ms * 1000000 < 2 ^ 63) :
    (timestampOf ms).loc = Loc.utc ∧
    (timestampOf ms).unixSec * 1000000000 + ((timestampOf ms).nsec : Int) = ms * 1000000 ∧
    (timestampOf ms).UnixNano = ms * 1000000 ∧
    (timestampOf ms).UnixMilli = ms := by
  unfold timestampOf
  rw [if_pos h0, wrapInt64_of_range _ hlo hhi]
  obtain ⟨q, r, hr0, hr1, hqr, ht⟩ := timeUnix_spec (ms * 1000000) hlo hhi
  have hu : unixToInternal = 62135596800 := by decide
  rw [ht]
  have hsec : wrapInt64 (q + unixToInternal - unixToInternal) = q := by
    rw [wrapInt64_of_range _ (by omega) (by omega)]
    omega
  have hcast : ((r.toNat : Nat) : Int) = r := Int.toNat_of_nonneg hr0
  simp only [Time.UTC, Time.unixSec, Time.UnixNano, Time.UnixMilli, hsec, hcast]
  refine ⟨trivial, hqr, ?_, ?_⟩
  · rw [wrapInt64_add_left, wrapInt64_of_range _ (by omega) (by omega)]
    exact hqr
  · rw [Int.tdiv_eq_ediv hr0 (by norm_num),
      wrapInt64_of_range (q * 1000) (by omega) (by omega),
      wrapInt64_of_range _ (by omega) (by omega)]
    omega

/-- C5 as stated fails: the field 9223372036855 ms is a nonzero signed 64-bit
number, its product with 1000000 leaves the `int64` range, and the decoded
timestamp reads back as -9223372036855 ms (a time in 1677), not as the field. -/
theorem timestamp_not_exact_counterexample :
    ¬ (∀ r : RawRecord, r.WellFormed → r.ms ≠ 0 →
        ∀ s, decodeTimeseriesBinary (encodeRecord r) = some (some [s], none) →
          s.Timestamp.UnixMilli = r.ms) := by
  intro h
  have := h ⟨[109], 9223372036855, 7⟩ (by decide) (by decide)
    ⟨[109], some [], ⟨145448384, 52912224763, Loc.utc⟩, 7⟩ (by decide)
  revert this
  decide

/-- C5, amended: for a well-formed record whose timestamp field `ms` is nonzero
and has `ms * 1000000` within the `int64` range, the decoded sample's timestamp
is the UTC time exactly `ms` milliseconds after the Unix epoch: its seconds and
nanoseconds add up to `ms * 1000000` ns, and `UnixMilli` gives `ms` back. -/
theorem timestamp_exact_in_range (r : RawRecord) (h : r.WellFormed) (h0 : r.ms ≠ 0)
    (hlo : -(2 ^ 63) ≤ r.ms * 1000000) (hhi : r.ms * 1000000 < 2 ^ 63) :
    decodeTimeseriesBinary (encodeRecord r) = some (some [sampleOf r], none) ∧
    (sampleOf r).Timestamp.loc = Loc.utc ∧
    (sampleOf r).Timestamp.unixSec * 1000000000 + ((sampleOf r).Timestamp.nsec : Int) =
      r.ms * 1000000 ∧
    (sampleOf r).Timestamp.UnixNano = r.ms * 1000000 ∧
    (sampleOf r).Timestamp.UnixMilli = r.ms := by
  refine ⟨decode_one_record r h, ?_⟩
  rw [timestamp_sampleOf r h]
  exact timestampOf_exact r.ms h0 hlo hhi

/-- Witness of C5 amended: the record `m` at -1500 ms. -/
theorem timestamp_exact_in_range_witness :
    decodeTimeseriesBinary (encodeRecord ⟨[109], -1500, 7⟩) =
      some (some [sampleOf ⟨[109], -1500, 7⟩], none) ∧
    (sampleOf ⟨[109], -1500, 7⟩).Timestamp.loc = Loc.utc ∧
    (sampleOf ⟨[109], -1500, 7⟩).Timestamp.unixSec * 1000000000 +
        ((sampleOf ⟨[109], -1500, 7⟩).Timestamp.nsec : Int) =
      (RawRecord.mk [109] (-1500) 7).ms * 1000000 ∧
    (sampleOf ⟨[109], -1500, 7⟩).Timestamp.UnixNano =
      (RawRecord.mk [109] (-1500) 7).ms * 1000000 ∧
    (sampleOf ⟨[109], -1500, 7⟩).Timestamp.UnixMilli = (RawRecord.mk [109] (-1500) 7).ms :=
  timestamp_exact_in_range ⟨[109], -1500, 7⟩ (by decide) (by decide) (by decide) (by decide)

/-- C10: the decoded sample of a well-formed record has the zero time (the one
`Time.IsZero` recognises) exactly when the record's timestamp field is 0; the
nonzero field `2^58`, whose product with 1000000 wraps to 0, decodes to the
Unix epoch, which is not the zero time. -/
theorem unset_iff_wire_zero (r : RawRecord) (h : r.WellFormed) :
    decodeTimeseriesBinary (encodeRecord r) = some (some [sampleOf r], none) ∧
    (sampleOf r).Timestamp = timestampOf r.ms ∧
    ((sampleOf r).Timestamp.IsZero = true ↔ r.ms = 0) ∧
    wrapInt64 (288230376151711744 * 1000000) = 0 ∧
    timestampOf 288230376151711744 = ⟨0, unixToInternal, Loc.utc⟩ ∧
    (timestampOf 288230376151711744).IsZero = false := by
  refine ⟨decode_one_record r h, timestamp_sampleOf r h, ?_, by decide, by decide, by decide⟩
  rw [timestamp_sampleOf r h]
  exact timestampOf_isZero r.ms

/-- Witness of C10: the second example record, whose timestamp field is 0. -/
theorem unset_iff_wire_zero_witness :
    decodeTimeseriesBinary (encodeRecord ⟨[97, 0, 107, 0, 118], 0, 1⟩) =
      some (some [sampleOf ⟨[97, 0, 107, 0, 118], 0, 1⟩], none) ∧
    (sampleOf ⟨[97, 0, 107, 0, 118], 0, 1⟩).Timestamp =
      timestampOf (RawRecord.mk [97, 0, 107, 0, 118] 0 1).ms ∧
    ((sampleOf ⟨[97, 0, 107, 0, 118], 0, 1⟩).Timestamp.IsZero = true ↔
      (RawRecord.mk [97, 0, 107, 0, 118] 0 1).ms = 0) ∧
    wrapInt64 (288230376151711744 * 1000000) = 0 ∧
    timestampOf 288230376151711744 = ⟨0, unixToInternal, Loc.utc⟩ ∧
    (timestampOf 288230376151711744).IsZero = false :=
  unset_iff_wire_zero ⟨[97, 0, 107, 0, 118], 0, 1⟩ (by decide)

/-! ## The assembler -/

theorem mem_firstSeen (l : List Str) (x : Str) : x ∈ firstSeen l ↔ x ∈ l := by
  induction l with
  | nil => simp [firstSeen]
  | cons a l ih =>
    simp only [firstSeen, List.mem_cons, List.mem_filter, ih, decide_eq_true_eq]
    by_cases h : x = a
    · simp [h]
    · simp [h]

theorem nodup_firstSeen (l : List Str) : (firstSeen l).Nodup := by
  induction l with
  | nil => simp [firstSeen]
  | cons a l ih =>
    simp only [firstSeen, List.nodup_cons, List.mem_filter, decide_eq_true_eq]
    exact ⟨fun h => h.2 rfl, ih.filter _⟩

theorem firstSeen_snoc (l : List Str) (n : Str) :
    firstSeen (l ++ [n]) = if n ∈ l then firstSeen l else firstSeen l ++ [n] := by
  induction l with
  | nil => simp [firstSeen]
  | cons a l ih =>
    have e : firstSeen (a :: l ++ [n]) =
        a :: (firstSeen (l ++ [n])).filter (fun x => decide (x ≠ a)) := rfl
    have e2 : firstSeen (a :: l) = a :: (firstSeen l).filter (fun x => decide (x ≠ a)) := rfl
    rw [e, e2, ih]
    by_cases hna : n = a
    · subst hna
      by_cases hnl : n ∈ l
      · simp [hnl]
      · simp [hnl, List.filter_append]
    · by_cases hnl : n ∈ l
      · simp [hnl, hna]
      · simp [hnl, hna, List.filter_append]

theorem appendPoint_names (ms : List Metric) (i : Nat) (dp : NumberDataPoint) :
    (appendPoint ms i dp).map (fun m => m.name) = ms.map (fun m => m.name) := by
  induction ms generalizing i with
  | nil => rfl
  | cons m ms ih =>
    cases i with
    | zero => simp [appendPoint]
    | succ i => simp [appendPoint, ih]

theorem appendPoint_getElem? (ms : List Metric) (i j : Nat) (dp : NumberDataPoint) :
    (appendPoint ms i dp)[j]? =
      if j = i then (ms[j]?).map (fun m => { m with dataPoints := m.dataPoints ++ [dp] })
      else ms[j]? := by
  induction ms generalizing i j with
  | nil => simp [appendPoint]
  | cons m ms ih =>
    cases i with
    | zero =>
      cases j with
      | zero => simp [appendPoint]
      | succ j => simp [appendPoint]
    | succ i =>
      cases j with
      | zero => simp [appendPoint]
      | succ j => simp [appendPoint, ih]

theorem sampleStep_found (clock : Nat → Time) (st : AsmState) (s : metricSample) (i : Nat)
    (h : mapGet st.metricIndex s.Name = some i) :
    sampleStep clock st s =
      ⟨appendPoint st.metrics i (pointOf clock st.reads s), st.metricIndex,
        if s.Timestamp.IsZero then st.reads + 1 else st.reads⟩ := by
  simp only [sampleStep, h]

theorem sampleStep_fresh (clock : Nat → Time) (st : AsmState) (s : metricSample)
    (h : mapGet st.metricIndex s.Name = none) :
    sampleStep clock st s =
      ⟨appendPoint (st.metrics ++ [⟨s.Name, []⟩]) st.metrics.length (pointOf clock st.reads s),
        mapPut st.metricIndex s.Name st.metrics.length,
        if s.Timestamp.IsZero then st.reads + 1 else st.reads⟩ := by
  simp only [sampleStep, h]

theorem asmInv_step (clock : Nat → Time) (ss : List metricSample) (st : AsmState)
    (s : metricSample) (hinv : AsmInv ss st) : AsmInv (ss ++ [s]) (sampleStep clock st s) := by
  obtain ⟨h1, h2, h3⟩ := hinv
  cases hfound : mapGet st.metricIndex s.Name with
  | some i =>
    rw [sampleStep_found clock st s i hfound]
    have hname : (st.metrics.map (fun m => m.name))[i]? = some s.Name := (h2 _ _).mp hfound
    have hmem : s.Name ∈ ss.map (fun s => s.Name) := by
      rw [← mem_firstSeen, ← h1]
      exact List.mem_iff_getElem?.mpr ⟨i, hname⟩
    refine ⟨?_, ?_, ?_⟩
    · simp only [appendPoint_names, List.map_append, List.map_cons, List.map_nil]
      rw [firstSeen_snoc, if_pos hmem, h1]
    · intro n j
      simp only [appendPoint_names]
      exact h2 n j
    · intro j m hm
      simp only [appendPoint_getElem?] at hm
      by_cases hji : j = i
      · subst hji
        rw [if_pos rfl] at hm
        cases hold : st.metrics[j]? with
        | none => simp [hold] at hm
        | some m0 =>
          rw [hold] at hm
          simp only [Option.map_some', Option.some.injEq] at hm
          have hn0 : m0.name = s.Name := by
            rw [List.getElem?_map, hold] at hname
            simpa using hname
          subst hm
          simp only [List.map_append, List.map_cons, List.map_nil, List.filter_append]
          rw [h3 j m0 hold]
          simp [hn0, pointOf]
      · rw [if_neg hji] at hm
        have hne : s.Name ≠ m.name := by
          intro e
          have : (st.metrics.map (fun m => m.name))[j]? = some s.Name := by
            rw [List.getElem?_map, hm]; simp [e]
          have := (h2 _ _).mpr this
          rw [hfound] at this
          exact hji (Option.some.inj this).symm
        simp only [List.filter_append, List.map_append]
        rw [h3 j m hm]
        simp [hne]
  | none =>
    rw [sampleStep_fresh clock st s hfound]
    have hnot : ∀ j : Nat, (st.metrics.map (fun m => m.name))[j]? ≠ some s.Name := by
      intro j hj
      have := (h2 _ _).mpr hj
      rw [hfound] at this
      exact Option.noConfusion this
    have hnmem : s.Name ∉ ss.map (fun s => s.Name) := by
      rw [← mem_firstSeen, ← h1]
      intro hmem
      obtain ⟨j, hj⟩ := List.mem_iff_getElem?.mp hmem
      exact hnot j hj
    have hlen : (st.metrics.map (fun m => m.name)).length = st.metrics.length := by simp
    refine ⟨?_, ?_, ?_⟩
    · simp only [appendPoint_names, List.map_append, List.map_cons, List.map_nil]
      rw [firstSeen_snoc, if_neg hnmem, h1]
    · intro n j
      simp only [appendPoint_names, List.map_append, List.map_cons, List.map_nil]
      by_cases hn : s.Name = n
      · subst hn
        rw [mapGet_mapPut_same]
        constructor
        · intro hj
          cases hj
          rw [List.getElem?_append_right (by simp)]
          simp
        · intro hj
          by_cases hlt : j < st.metrics.length
          · rw [List.getElem?_append_left (by simpa using hlt)] at hj
            exact absurd hj (hnot j)
          · rw [List.getElem?_append_right (by simpa using hlt)] at hj
            have : j - (st.metrics.map (fun m => m.name)).length = 0 := by
              by_contra hne
              obtain ⟨k, hk⟩ := Nat.exists_eq_succ_of_ne_zero hne
              rw [hk] at hj
              simp at hj
            congr 1
            omega
      · rw [mapGet_mapPut_ne _ _ _ _ hn, h2]
        by_cases hlt : j < st.metrics.length
        · rw [List.getElem?_append_left (by simpa using hlt)]
        · rw [List.getElem?_append_right (by simpa using hlt)]
          have hnone : (st.metrics.map (fun m => m.name))[j]? = none := by
            rw [List.getElem?_eq_none]; simp; omega
          rw [hnone]
          constructor
          · intro h; exact Option.noConfusion h
          · intro h
            cases hk : j - (st.metrics.map (fun m => m.name)).length with
            | zero => rw [hk] at h; simp at h; exact absurd h hn
            | succ k => rw [hk] at h; simp at h
    · intro j m hm
      simp only [appendPoint_getElem?] at hm
      by_cases hji : j = st.metrics.length
      · subst hji
        rw [if_pos rfl, List.getElem?_append_right (Nat.le_refl _)] at hm
        simp only [Nat.sub_self, List.getElem?_cons_zero, Option.map_some',
          Option.some.injEq] at hm
        subst hm
        simp only [List.nil_append, List.map_cons, List.map_nil, List.filter_append,
          List.map_append]
        have hempty : ss.filter (fun x => decide (x.Name = s.Name)) = [] := by
          rw [List.filter_eq_nil_iff]
          intro x hx hxe
          apply hnmem
          simp only [decide_eq_true_eq] at hxe
          exact List.mem_map.mpr ⟨x, hx, hxe⟩
        simp [hempty, pointOf]
      · rw [if_neg hji] at hm
        have hlt : j < st.metrics.length := by
          by_contra hge
          rw [List.getElem?_append_right (by omega)] at hm
          cases hk : j - st.metrics.length with
          | zero => omega
          | succ k => rw [hk] at hm; simp at hm
        rw [List.getElem?_append_left hlt] at hm
        have hne : s.Name ≠ m.name := by
          intro e
          apply hnot j
          rw [List.getElem?_map, hm]; simp [e]
        simp only [List.filter_append, List.map_append]
        rw [h3 j m hm]
        simp [hne]

theorem asmInv_foldl (clock : Nat → Time) (ss : List metricSample) :
    AsmInv ss (ss.foldl (sampleStep clock) ⟨[], [], 0⟩) := by
  induction ss using List.reverseRecOn with
  | nil =>
    refine ⟨rfl, ?_, ?_⟩
    · intro n i
      simp [mapGet]
    · intro i m hm
      simp at hm
  | append_singleton l s ih =>
    rw [List.foldl_append]
    exact asmInv_step clock l _ s ih

theorem series_metricsFromSamples (clock : Nat → Time) (samples : List metricSample) :
    (metricsFromSamples clock samples).series =
      (samples.foldl (sampleStep clock) ⟨[], [], 0⟩).metrics := by
  unfold metricsFromSamples metricsFromSamplesRun
  by_cases h : samples.length = 0
  · have : samples = [] := List.length_eq_zero.mp h
    subst this
    simp [Metrics.series]
  · simp [h, Metrics.series]

/-- C9: the container `metricsFromSamples` builds has one series per distinct
sample name, in the order in which the names first occur, and the points of
the series named `n` carry the values of the samples named `n` in their
original order; the samples a=1, b=2, a=3 give the series `a` with the values
1, 3 followed by the series `b` with the value 2. -/
theorem metricsFromSamples_groups_by_name (clock : Nat → Time) (samples : List metricSample) :
    (metricsFromSamples clock samples).series.map (fun m => m.name) =
      firstSeen (samples.map (fun s => s.Name)) ∧
    ((metricsFromSamples clock samples).series.map (fun m => m.name)).Nodup ∧
    (∀ n, n ∈ (metricsFromSamples clock samples).series.map (fun m => m.name) ↔
      ∃ s ∈ samples, s.Name = n) ∧
    (∀ m ∈ (metricsFromSamples clock samples).series,
      m.dataPoints.map (fun dp => dp.value) =
        (samples.filter (fun s => decide (s.Name = m.name))).map (fun s => s.Value)) ∧
    (metricsFromSamples clock
        [⟨[97], some [], Time.zero, 4607182418800017408⟩,
         ⟨[98], some [], Time.zero, 4611686018427387904⟩,
         ⟨[97], some [], Time.zero, 4613937818241073152⟩]).series.map
        (fun m => (m.name, m.dataPoints.map (fun dp => dp.value))) =
      [([97], [4607182418800017408, 4613937818241073152]), ([98], [4611686018427387904])] := by
  obtain ⟨h1, -, h3⟩ := asmInv_foldl clock samples
  rw [series_metricsFromSamples]
  refine ⟨h1, ?_, ?_, ?_, ?_⟩
  · rw [h1]; exact nodup_firstSeen _
  · intro n
    rw [h1, mem_firstSeen]
    simp
  · intro m hm
    obtain ⟨i, hi⟩ := List.mem_iff_getElem?.mp hm
    have := congrArg (List.map Prod.fst) (h3 i m hi)
    simpa [List.map_map, Function.comp] using this
  · rfl

/-! ## The data points of the assembler -/

theorem countUnset_snoc (ss : List metricSample) (s : metricSample) :
    countUnset (ss ++ [s]) = countUnset ss + (if s.Timestamp.IsZero then 1 else 0) := by
  unfold countUnset
  rw [List.filter_append, List.length_append]
  by_cases h : s.Timestamp.IsZero = true
  · simp [h]
  · simp [h]

theorem pointsFrom_snoc (clock : Nat → Time) (reads : Nat) (ss : List metricSample)
    (s : metricSample) :
    pointsFrom clock reads (ss ++ [s]) =
      pointsFrom clock reads ss ++ [(s.Name, pointOf clock (reads + countUnset ss) s)] := by
  induction ss generalizing reads with
  | nil => simp [pointsFrom, countUnset]
  | cons a l ih =>
    have e1 : pointsFrom clock reads (a :: l ++ [s]) =
        (a.Name, pointOf clock reads a) ::
          pointsFrom clock (if a.Timestamp.IsZero then reads + 1 else reads) (l ++ [s]) := rfl
    have e2 : pointsFrom clock reads (a :: l) =
        (a.Name, pointOf clock reads a) ::
          pointsFrom clock (if a.Timestamp.IsZero then reads + 1 else reads) l := rfl
    rw [e1, e2, ih, List.cons_append]
    by_cases h : a.Timestamp.IsZero = true
    · have e : countUnset (a :: l) = countUnset l + 1 := by
        simp [countUnset, List.filter_cons, h]
      rw [e, if_pos h]
      have e3 : reads + 1 + countUnset l = reads + (countUnset l + 1) := by omega
      rw [e3]
    · have e : countUnset (a :: l) = countUnset l := by
        simp [countUnset, List.filter_cons, h]
      rw [e, if_neg h]

theorem length_pointsFrom (clock : Nat → Time) (reads : Nat) (ss : List metricSample) :
    (pointsFrom clock reads ss).length = ss.length := by
  induction ss generalizing reads with
  | nil => rfl
  | cons a l ih => simp [pointsFrom, ih]

/-- The entry number `i` of `pointsFrom`: the point of sample number `i`, made
with the clock reading whose number is the count of unset samples before it. -/
theorem pointsFrom_getElem? (clock : Nat → Time) (reads : Nat) (ss : List metricSample)
    (i : Nat) :
    (pointsFrom clock reads ss)[i]? =
      (ss[i]?).map (fun s => (s.Name, pointOf clock (reads + countUnset (ss.take i)) s)) := by
  induction ss generalizing reads i with
  | nil => simp [pointsFrom]
  | cons a l ih =>
    cases i with
    | zero => simp [pointsFrom, countUnset]
    | succ i =>
      simp only [pointsFrom, List.getElem?_cons_succ, ih, List.take_succ_cons]
      by_cases h : a.Timestamp.IsZero = true
      · have e : countUnset (a :: l.take i) = countUnset (l.take i) + 1 := by
          simp [countUnset, List.filter_cons, h]
        simp only [h, if_true, e]
        congr 1; funext s; congr 2; omega
      · have e : countUnset (a :: l.take i) = countUnset (l.take i) := by
          simp [countUnset, List.filter_cons, h]
        simp only [h, e]
        rfl

theorem appendPoint_sum (ms : List Metric) (i : Nat) (dp : NumberDataPoint)
    (h : i < ms.length) :
    ((appendPoint ms i dp).map (fun m => m.dataPoints.length)).sum =
      (ms.map (fun m => m.dataPoints.length)).sum + 1 := by
  induction ms generalizing i with
  | nil => simp at h
  | cons m ms ih =>
    cases i with
    | zero => simp [appendPoint]; omega
    | succ i =>
      simp only [appendPoint, List.map_cons, List.sum_cons]
      rw [ih i (by simpa using h)]
      omega

theorem asmPoints_step (clock : Nat → Time) (ss : List metricSample) (st : AsmState)
    (s : metricSample) (hinv : AsmInv ss st) (hpts : AsmPoints clock ss st) :
    AsmPoints clock (ss ++ [s]) (sampleStep clock st s) := by
  obtain ⟨h1, h2, -⟩ := hinv
  obtain ⟨hr, hp, hsum⟩ := hpts
  have hsnoc := pointsFrom_snoc clock 0 ss s
  rw [Nat.zero_add, ← hr] at hsnoc
  cases hfound : mapGet st.metricIndex s.Name with
  | some i =>
    rw [sampleStep_found clock st s i hfound]
    have hname : (st.metrics.map (fun m => m.name))[i]? = some s.Name := (h2 _ _).mp hfound
    have hlt : i < st.metrics.length := by
      have := (List.getElem?_eq_some.mp hname).1
      simpa using this
    refine ⟨?_, ?_, ?_⟩
    · simp only [countUnset_snoc, hr]
      split <;> rfl
    · intro j m hm
      simp only [appendPoint_getElem?] at hm
      rw [hsnoc, List.filter_append, List.map_append]
      by_cases hji : j = i
      · subst hji
        rw [if_pos rfl] at hm
        cases hold : st.metrics[j]? with
        | none => simp [hold] at hm
        | some m0 =>
          rw [hold] at hm
          simp only [Option.map_some', Option.some.injEq] at hm
          have hn0 : m0.name = s.Name := by
            rw [List.getElem?_map, hold] at hname
            simpa using hname
          subst hm
          simp only
          rw [hp j m0 hold]
          simp [hn0]
      · rw [if_neg hji] at hm
        have hne : s.Name ≠ m.name := by
          intro e
          have : (st.metrics.map (fun m => m.name))[j]? = some s.Name := by
            rw [List.getElem?_map, hm]; simp [e]
          have := (h2 _ _).mpr this
          rw [hfound] at this
          exact hji (Option.some.inj this).symm
        rw [hp j m hm]
        simp [hne]
    · simp only
      rw [appendPoint_sum _ _ _ hlt, hsum]
      simp
  | none =>
    rw [sampleStep_fresh clock st s hfound]
    have hnot : ∀ j : Nat, (st.metrics.map (fun m => m.name))[j]? ≠ some s.Name := by
      intro j hj
      have := (h2 _ _).mpr hj
      rw [hfound] at this
      exact Option.noConfusion this
    refine ⟨?_, ?_, ?_⟩
    · simp only [countUnset_snoc, hr]
      split <;> rfl
    · intro j m hm
      simp only [appendPoint_getElem?] at hm
      rw [hsnoc, List.filter_append, List.map_append]
      by_cases hji : j = st.metrics.length
      · subst hji
        rw [if_pos rfl, List.getElem?_append_right (Nat.le_refl _)] at hm
        simp only [Nat.sub_self, List.getElem?_cons_zero, Option.map_some',
          Option.some.injEq] at hm
        subst hm
        simp only [List.nil_append]
        have hempty : (pointsFrom clock 0 ss).filter (fun p => decide (p.1 = s.Name)) = [] := by
          rw [List.filter_eq_nil_iff]
          intro p hp2 hpe
          simp only [decide_eq_true_eq] at hpe
          obtain ⟨k, hk⟩ := List.mem_iff_getElem?.mp hp2
          rw [pointsFrom_getElem?] at hk
          cases hsk : ss[k]? with
          | none => simp [hsk] at hk
          | some x =>
            rw [hsk] at hk
            simp only [Option.map_some', Option.some.injEq] at hk
            have hx : x.Name = s.Name := by rw [← hpe, ← hk]
            have hmem : s.Name ∈ ss.map (fun s => s.Name) :=
              List.mem_map.mpr ⟨x, List.mem_iff_getElem?.mpr ⟨k, hsk⟩, hx⟩
            rw [← mem_firstSeen, ← h1] at hmem
            obtain ⟨j, hj⟩ := List.mem_iff_getElem?.mp hmem
            exact hnot j hj
        simp [hempty]
      · rw [if_neg hji] at hm
        have hlt : j < st.metrics.length := by
          by_contra hge
          rw [List.getElem?_append_right (by omega)] at hm
          cases hk : j - st.metrics.length with
          | zero => omega
          | succ k => rw [hk] at hm; simp at hm
        rw [List.getElem?_append_left hlt] at hm
        have hne : s.Name ≠ m.name := by
          intro e
          apply hnot j
          rw [List.getElem?_map, hm]; simp [e]
        rw [hp j m hm]
        simp [hne]
    · simp only
      rw [appendPoint_sum _ _ _ (by simp), List.map_append, List.sum_append, hsum]
      simp

theorem asmPoints_foldl (clock : Nat → Time) (ss : List metricSample) :
    AsmPoints clock ss (ss.foldl (sampleStep clock) ⟨[], [], 0⟩) := by
  induction ss using List.reverseRecOn with
  | nil =>
    refine ⟨rfl, ?_, rfl⟩
    intro i m hm
    simp at hm
  | append_singleton l s ih =>
    rw [List.foldl_append]
    exact asmPoints_step clock l _ s (asmInv_foldl clock l) ih

theorem reads_metricsFromSamplesRun (clock : Nat → Time) (samples : List metricSample) :
    (metricsFromSamplesRun clock samples).2 =
      (samples.foldl (sampleStep clock) ⟨[], [], 0⟩).reads := by
  unfold metricsFromSamplesRun
  by_cases h : samples.length = 0
  · have : samples = [] := List.length_eq_zero.mp h
    subst this
    simp
  · simp [h]

theorem points_series (clock : Nat → Time) (samples : List metricSample) :
    ∀ m ∈ (metricsFromSamples clock samples).series,
      m.dataPoints =
        ((pointsFrom clock 0 samples).filter (fun p => decide (p.1 = m.name))).map Prod.snd := by
  intro m hm
  rw [series_metricsFromSamples] at hm
  obtain ⟨i, hi⟩ := List.mem_iff_getElem?.mp hm
  exact (asmPoints_foldl clock samples).2.1 i m hi

theorem countUnset_take_le (ss : List metricSample) (i j : Nat) (h : i ≤ j) :
    countUnset (ss.take i) ≤ countUnset (ss.take j) := by
  have e : ss.take i = (ss.take j).take i := by
    rw [List.take_take, Nat.min_eq_left h]
  unfold countUnset
  rw [e]
  exact ((List.take_sublist i (ss.take j)).filter _).length_le

theorem countUnset_take_succ (ss : List metricSample) (i : Nat) (s : metricSample)
    (h : ss[i]? = some s) :
    countUnset (ss.take (i + 1)) =
      countUnset (ss.take i) + (if s.Timestamp.IsZero then 1 else 0) := by
  rw [List.take_succ, h]
  exact countUnset_snoc _ _

theorem newTimestampFromTime_UTC (t : Time) :
    newTimestampFromTime t.UTC = newTimestampFromTime t := rfl

theorem reads_eq_countUnset (clock : Nat → Time) (samples : List metricSample) :
    (metricsFromSamplesRun clock samples).2 = countUnset samples := by
  rw [reads_metricsFromSamplesRun]
  exact (asmPoints_foldl clock samples).1

theorem countUnset_take_lt (ss : List metricSample) (i j : Nat) (s : metricSample)
    (hij : i < j) (hs : ss[i]? = some s) (hz : s.Timestamp.IsZero = true) :
    countUnset (ss.take i) < countUnset (ss.take j) := by
  have h1 := countUnset_take_succ ss i s hs
  rw [if_pos hz] at h1
  have h2 := countUnset_take_le ss (i + 1) j (by omega)
  omega

/-- Inside the `int64` nanosecond range the timestamp made from a time is the
time's nanoseconds since 1970 (modulo `2^64` for a time before 1970), so it is
zero only for the Unix epoch itself. -/
theorem newTimestamp_in_range (t : Time) (hn : t.nsec < 1000000000)
    (hlo : -(2 ^ 63) ≤ t.nanosSinceEpoch) (hhi : t.nanosSinceEpoch < 2 ^ 63) :
    t.UnixNano = t.nanosSinceEpoch ∧
    ((newTimestampFromTime t : Nat) : Int) = t.nanosSinceEpoch % 2 ^ 64 ∧
    (t.nanosSinceEpoch ≠ 0 → newTimestampFromTime t ≠ 0) := by
  have hu : unixToInternal = 62135596800 := by decide
  unfold Time.nanosSinceEpoch at hlo hhi ⊢
  have hnn : ((t.nsec : Nat) : Int) < 1000000000 := by exact_mod_cast hn
  have hsec : t.unixSec = t.sec - unixToInternal := by
    unfold Time.unixSec
    exact wrapInt64_of_range _ (by omega) (by omega)
  have hnano : t.UnixNano = (t.sec - unixToInternal) * 1000000000 + (t.nsec : Int) := by
    unfold Time.UnixNano
    rw [hsec, wrapInt64_add_left, wrapInt64_of_range _ hlo hhi]
  have hcast : ((newTimestampFromTime t : Nat) : Int) =
      ((t.sec - unixToInternal) * 1000000000 + (t.nsec : Int)) % 2 ^ 64 := by
    unfold newTimestampFromTime
    rw [hnano, Int.toNat_of_nonneg (Int.emod_nonneg _ (by norm_num))]
  refine ⟨hnano, hcast, ?_⟩
  intro hne h0
  rw [h0] at hcast
  simp only [Nat.cast_zero] at hcast
  omega

/-- C11 as stated fails in its last part: with a clock that reads 21 July 2554
(a time that is neither the zero time nor the Unix epoch), the one unset
sample `a` gets a data point whose timestamp is 0, the epoch value, because
the reading's nanoseconds since 1970 are `2^64`. -/
theorem clock_timestamp_nonzero_counterexample :
    ¬ (∀ (clock : Nat → Time) (s : metricSample), s.Timestamp.IsZero = true →
        (clock 0).IsZero = false →
        ((clock 0).sec ≠ unixToInternal ∨ (clock 0).nsec ≠ 0) →
        ∀ m ∈ (metricsFromSamples clock [s]).series, ∀ dp ∈ m.dataPoints,
          dp.timestamp ≠ 0) := by
  intro h
  have hseries : (metricsFromSamples clock2554 [⟨[97], some [], Time.zero, 7⟩]).series =
      [⟨[97], [⟨7, 0, []⟩]⟩] := by decide
  have hz : (metricSample.mk [97] (some []) Time.zero 7).Timestamp.IsZero = true := by decide
  have hc1 : (clock2554 0).IsZero = false := by decide
  have hc2 : (clock2554 0).sec ≠ unixToInternal ∨ (clock2554 0).nsec ≠ 0 := by decide
  have hm : Metric.mk [97] [⟨7, 0, []⟩] ∈
      (metricsFromSamples clock2554 [⟨[97], some [], Time.zero, 7⟩]).series := by
    rw [hseries]; exact List.mem_singleton.mpr rfl
  have hdp : NumberDataPoint.mk 7 0 [] ∈ (Metric.mk [97] [⟨7, 0, []⟩]).dataPoints :=
    List.mem_singleton.mpr rfl
  exact h clock2554 _ hz hc1 hc2 _ hm _ hdp rfl

/-- C11, amended: for a sample with an unset timestamp, `metricsFromSamples`
reads the clock once for it (the run on the samples up to and including a
sample makes one reading more than the run on the samples before it exactly
when that sample is unset; the whole run makes as many readings as there are
unset samples), the series of the sample's name exists and holds the sample's
data point, and that point carries the reading numbered by the count of unset
samples before it, a reading no other unset sample uses; when this reading
lies in the `int64` nanosecond range, the timestamp is its nanoseconds since
1970 and is nonzero unless the reading is the Unix epoch itself. -/
theorem clock_read_once_per_unset (clock : Nat → Time) (samples : List metricSample)
    (i : Nat) (s : metricSample) (hs : samples[i]? = some s)
    (hz : s.Timestamp.IsZero = true) :
    (metricsFromSamplesRun clock samples).2 = countUnset samples ∧
    (∀ (j : Nat) (s2 : metricSample), samples[j]? = some s2 →
      (metricsFromSamplesRun clock (samples.take (j + 1))).2 =
        (metricsFromSamplesRun clock (samples.take j)).2 +
          (if s2.Timestamp.IsZero then 1 else 0)) ∧
    countUnset (samples.take i) < (metricsFromSamplesRun clock samples).2 ∧
    (∀ (j : Nat) (s2 : metricSample), j ≠ i → samples[j]? = some s2 →
      s2.Timestamp.IsZero = true →
      countUnset (samples.take j) ≠ countUnset (samples.take i)) ∧
    ∃ (m : Metric) (dp : NumberDataPoint),
      m ∈ (metricsFromSamples clock samples).series ∧ m.name = s.Name ∧
      m.dataPoints =
        ((pointsFrom clock 0 samples).filter (fun p => decide (p.1 = m.name))).map Prod.snd ∧
      (pointsFrom clock 0 samples)[i]? = some (s.Name, dp) ∧
      dp ∈ m.dataPoints ∧
      dp.value = s.Value ∧
      dp.timestamp = newTimestampFromTime (clock (countUnset (samples.take i))) ∧
      ((clock (countUnset (samples.take i))).nsec < 1000000000 →
        -(2 ^ 63) ≤ (clock (countUnset (samples.take i))).nanosSinceEpoch →
        (clock (countUnset (samples.take i))).nanosSinceEpoch < 2 ^ 63 →
        ((dp.timestamp : Nat) : Int) =
          (clock (countUnset (samples.take i))).nanosSinceEpoch % 2 ^ 64 ∧
        ((clock (countUnset (samples.take i))).nanosSinceEpoch ≠ 0 → dp.timestamp ≠ 0)) := by
  have hpt : (pointsFrom clock 0 samples)[i]? =
      some (s.Name, pointOf clock (countUnset (samples.take i)) s) := by
    rw [pointsFrom_getElem?, hs]; simp
  have hts : (pointOf clock (countUnset (samples.take i)) s).timestamp =
      newTimestampFromTime (clock (countUnset (samples.take i))) := by
    simp only [pointOf, hz, if_true]
    exact newTimestampFromTime_UTC _
  refine ⟨reads_eq_countUnset clock samples, ?_, ?_, ?_, ?_⟩
  · intro j s2 hj
    rw [reads_eq_countUnset, reads_eq_countUnset]
    exact countUnset_take_succ samples j s2 hj
  · rw [reads_eq_countUnset]
    have h1 := countUnset_take_lt samples i samples.length s
      (List.getElem?_eq_some.mp hs).1 hs hz
    rw [List.take_length] at h1
    exact h1
  · intro j s2 hji hj hz2
    rcases Nat.lt_or_gt_of_ne hji with hlt | hgt
    · exact Nat.ne_of_lt (countUnset_take_lt samples j i s2 hlt hj hz2)
    · exact Nat.ne_of_gt (countUnset_take_lt samples i j s hgt hs hz)
  · have hmem : s.Name ∈ (metricsFromSamples clock samples).series.map (fun m => m.name) := by
      rw [series_metricsFromSamples, (asmInv_foldl clock samples).1, mem_firstSeen]
      exact List.mem_map.mpr ⟨s, List.mem_iff_getElem?.mpr ⟨i, hs⟩, rfl⟩
    obtain ⟨m, hm, hname⟩ := List.mem_map.mp hmem
    have hpoints := points_series clock samples m hm
    refine ⟨m, pointOf clock (countUnset (samples.take i)) s, hm, hname, hpoints, hpt, ?_,
      rfl, hts, ?_⟩
    · rw [hpoints]
      refine List.mem_map.mpr
        ⟨(s.Name, pointOf clock (countUnset (samples.take i)) s), ?_, rfl⟩
      exact List.mem_filter.mpr ⟨List.mem_iff_getElem?.mpr ⟨i, hpt⟩, by simp [hname]⟩
    · intro hn hlo hhi
      obtain ⟨-, hcast, hnz⟩ := newTimestamp_in_range _ hn hlo hhi
      rw [hts]
      exact ⟨hcast, hnz⟩

/-- Witness of C11 amended: the three example samples, the first of which is
unset, with a clock that always reads 1500 ns after 1970. -/
theorem clock_read_once_per_unset_witness :
    (metricsFromSamplesRun (fun _ => timeUnix 0 1500) exampleSamples).2 =
      countUnset exampleSamples ∧
    (∀ (j : Nat) (s2 : metricSample), exampleSamples[j]? = some s2 →
      (metricsFromSamplesRun (fun _ => timeUnix 0 1500) (exampleSamples.take (j + 1))).2 =
        (metricsFromSamplesRun (fun _ => timeUnix 0 1500) (exampleSamples.take j)).2 +
          (if s2.Timestamp.IsZero then 1 else 0)) ∧
    countUnset (exampleSamples.take 0) <
      (metricsFromSamplesRun (fun _ => timeUnix 0 1500) exampleSamples).2 ∧
    (∀ (j : Nat) (s2 : metricSample), j ≠ 0 → exampleSamples[j]? = some s2 →
      s2.Timestamp.IsZero = true →
      countUnset (exampleSamples.take j) ≠ countUnset (exampleSamples.take 0)) ∧
    ∃ (m : Metric) (dp : NumberDataPoint),
      m ∈ (metricsFromSamples (fun _ => timeUnix 0 1500) exampleSamples).series ∧
      m.name = (metricSample.mk [97] (some [([107], [118])]) Time.zero
        4607182418800017408).Name ∧
      m.dataPoints =
        ((pointsFrom (fun _ => timeUnix 0 1500) 0 exampleSamples).filter
          (fun p => decide (p.1 = m.name))).map Prod.snd ∧
      (pointsFrom (fun _ => timeUnix 0 1500) 0 exampleSamples)[0]? =
        some ((metricSample.mk [97] (some [([107], [118])]) Time.zero
          4607182418800017408).Name, dp) ∧
      dp ∈ m.dataPoints ∧
      dp.value = (metricSample.mk [97] (some [([107], [118])]) Time.zero
        4607182418800017408).Value ∧
      dp.timestamp = newTimestampFromTime
        ((fun _ => timeUnix 0 1500 : Nat → Time) (countUnset (exampleSamples.take 0))) ∧
      (((fun _ => timeUnix 0 1500 : Nat → Time)
          (countUnset (exampleSamples.take 0))).nsec < 1000000000 →
        -(2 ^ 63) ≤ ((fun _ => timeUnix 0 1500 : Nat → Time)
          (countUnset (exampleSamples.take 0))).nanosSinceEpoch →
        ((fun _ => timeUnix 0 1500 : Nat → Time)
          (countUnset (exampleSamples.take 0))).nanosSinceEpoch < 2 ^ 63 →
        ((dp.timestamp : Nat) : Int) =
          ((fun _ => timeUnix 0 1500 : Nat → Time)
            (countUnset (exampleSamples.take 0))).nanosSinceEpoch % 2 ^ 64 ∧
        (((fun _ => timeUnix 0 1500 : Nat → Time)
          (countUnset (exampleSamples.take 0))).nanosSinceEpoch ≠ 0 → dp.timestamp ≠ 0)) :=
  clock_read_once_per_unset (fun _ => timeUnix 0 1500) exampleSamples 0
    ⟨[97], some [([107], [118])], Time.zero, 4607182418800017408⟩ (by decide) (by decide)

/-- Copying a label map whose keys are distinct gives the same entries. -/
theorem copyLabels_eq (labels : Option (GoMap Str Str))
    (h : ((labels.getD []).map Prod.fst).Nodup) : copyLabels labels = labels.getD [] := by
  have key : ∀ (l acc : GoMap Str Str), (l.map Prod.fst).Nodup →
      (∀ k ∈ l.map Prod.fst, k ∉ acc.map Prod.fst) →
      l.foldl (fun attrs kv => mapPut attrs kv.1 kv.2) acc = acc ++ l := by
    intro l
    induction l with
    | nil => intro acc _ _; simp
    | cons p rest ih =>
      intro acc hnd hdis
      obtain ⟨k, v⟩ := p
      simp only [List.map_cons, List.nodup_cons] at hnd
      simp only [List.foldl_cons]
      rw [mapPut_fresh acc k v (hdis k (by simp)), ih _ hnd.2]
      · simp
      · intro k2 hk2
        simp only [List.map_append, List.map_cons, List.map_nil, List.mem_append,
          List.mem_singleton, not_or]
        refine ⟨hdis k2 (by simp [hk2]), ?_⟩
        rintro rfl
        exact hnd.1 hk2
  unfold copyLabels
  rw [key _ [] h (by simp)]
  simp

/-- C12: when the label maps of the samples are maps (distinct keys), the
points of each series are as many as the samples of its name, and point number
`j` has the value of sample number `j` of that name and exactly that sample's
labels as attributes. -/
theorem points_carry_value_and_labels (clock : Nat → Time) (samples : List metricSample)
    (hmap : ∀ s ∈ samples, ((s.Labels.getD []).map Prod.fst).Nodup)
    (m : Metric) (hm : m ∈ (metricsFromSamples clock samples).series)
    (j : Nat) (dp : NumberDataPoint) (s : metricSample)
    (hdp : m.dataPoints[j]? = some dp)
    (hs : (samples.filter (fun s => decide (s.Name = m.name)))[j]? = some s) :
    m.dataPoints.length = (samples.filter (fun s => decide (s.Name = m.name))).length ∧
    dp.value = s.Value ∧ dp.attributes = s.Labels.getD [] ∧
    ∀ k, mapGet dp.attributes k = mapGet (s.Labels.getD []) k := by
  rw [series_metricsFromSamples] at hm
  obtain ⟨i, hi⟩ := List.mem_iff_getElem?.mp hm
  have h3 := (asmInv_foldl clock samples).2.2 i m hi
  constructor
  · have := congrArg List.length h3
    simpa using this
  · have hj := congrArg (fun l => l[j]?) h3
    simp only [List.getElem?_map, hdp, hs, Option.map_some', Option.some.injEq,
      Prod.mk.injEq] at hj
    have hmem : s ∈ samples :=
      (List.mem_filter.mp (List.mem_iff_getElem?.mpr ⟨j, hs⟩)).1
    have hattr : dp.attributes = s.Labels.getD [] := by
      rw [hj.2]; exact copyLabels_eq _ (hmap s hmem)
    exact ⟨hj.1, hattr, fun k => by rw [hattr]⟩

/-- Witness of C12: the three example samples, the series `a` and its second
point, which belongs to the third sample. -/
theorem points_carry_value_and_labels_witness :
    (Metric.mk [97]
        [⟨4607182418800017408, 11651379494838206464, [([107], [118])]⟩,
         ⟨4613937818241073152, 18446744073704551616, [([120], [121])]⟩]).dataPoints.length =
      (exampleSamples.filter (fun s => decide (s.Name = [97]))).length ∧
    (NumberDataPoint.mk 4613937818241073152 18446744073704551616 [([120], [121])]).value =
      (metricSample.mk [97] (some [([120], [121])]) (timestampOf (-5))
        4613937818241073152).Value ∧
    (NumberDataPoint.mk 4613937818241073152 18446744073704551616
        [([120], [121])]).attributes =
      (metricSample.mk [97] (some [([120], [121])]) (timestampOf (-5))
        4613937818241073152).Labels.getD [] ∧
    ∀ k, mapGet (NumberDataPoint.mk 4613937818241073152 18446744073704551616
        [([120], [121])]).attributes k =
      mapGet ((metricSample.mk [97] (some [([120], [121])]) (timestampOf (-5))
        4613937818241073152).Labels.getD []) k :=
  points_carry_value_and_labels (fun _ => Time.zero) exampleSamples (by decide)
    ⟨[97], [⟨4607182418800017408, 11651379494838206464, [([107], [118])]⟩,
      ⟨4613937818241073152, 18446744073704551616, [([120], [121])]⟩]⟩ (by decide) 1
    ⟨4613937818241073152, 18446744073704551616, [([120], [121])]⟩
    ⟨[97], some [([120], [121])], timestampOf (-5), 4613937818241073152⟩
    (by decide) (by decide)

theorem unixNano_timeUnix (n : Int) (h1 : -(2 ^ 63) ≤ n) (h2 : n < 2 ^ 63) :
    (timeUnix 0 n).UTC.UnixNano = n := by
  obtain ⟨q, r, hr0, hr1, hqr, ht⟩ := timeUnix_spec n h1 h2
  have hu : unixToInternal = 62135596800 := by decide
  rw [ht]
  have hsec : wrapInt64 (q + unixToInternal - unixToInternal) = q := by
    rw [wrapInt64_of_range _ (by omega) (by omega)]
    omega
  have hcast : ((r.toNat : Nat) : Int) = r := Int.toNat_of_nonneg hr0
  simp only [Time.UTC, Time.unixSec, Time.UnixNano, hsec, hcast]
  rw [wrapInt64_add_left, wrapInt64_of_range _ (by omega) (by omega)]
  exact hqr

theorem toInt64_mod (n : Int) (h1 : -(2 ^ 63) ≤ n) (h2 : n < 2 ^ 63) :
    toInt64 (n % 2 ^ 64).toNat = n := by
  have := toInt64_encode n h1 h2
  have hpow : (256 : Nat) ^ 8 = 2 ^ 64 := by norm_num
  have hnn : 0 ≤ n % 2 ^ 64 := Int.emod_nonneg _ (by norm_num)
  have hlt : n % 2 ^ 64 < 2 ^ 64 := Int.emod_lt_of_pos _ (by norm_num)
  have hsmall : (n % 2 ^ 64).toNat < 2 ^ 64 := by
    have hc : ((n % 2 ^ 64).toNat : Int) = n % 2 ^ 64 := Int.toNat_of_nonneg hnn
    have : ((n % 2 ^ 64).toNat : Int) < ((2 ^ 64 : Nat) : Int) := by
      rw [hc]; exact_mod_cast hlt
    exact_mod_cast this
  rw [hpow, Nat.mod_eq_of_lt hsmall] at this
  exact this

/-- The timestamp made from a time the decoder produces stands, read back with
`AsTime`, for that same time; it is the time's nanoseconds since 1970 modulo
`2^64`. -/
theorem asTime_newTimestamp (ms : Int) (h0 : ms ≠ 0) :
    (timestampOf ms).IsZero = false ∧
    timestampAsTime (newTimestampFromTime (timestampOf ms)) = timestampOf ms ∧
    (timestampOf ms).UnixNano = wrapInt64 (ms * 1000000) ∧
    (0 ≤ (timestampOf ms).UnixNano →
      ((newTimestampFromTime (timestampOf ms) : Nat) : Int) = (timestampOf ms).UnixNano) := by
  have hz : (timestampOf ms).IsZero = false := by
    cases h : (timestampOf ms).IsZero with
    | false => rfl
    | true => exact absurd ((timestampOf_isZero ms).mp h) h0
  have hr := wrapInt64_range (ms * 1000000)
  have hn : (timestampOf ms).UnixNano = wrapInt64 (ms * 1000000) := by
    unfold timestampOf
    rw [if_pos h0]
    exact unixNano_timeUnix _ hr.1 hr.2
  refine ⟨hz, ?_, hn, ?_⟩
  · unfold timestampAsTime newTimestampFromTime
    rw [hn, toInt64_mod _ hr.1 hr.2]
    unfold timestampOf
    rw [if_pos h0]
  · intro hpos
    unfold newTimestampFromTime
    rw [hn] at hpos ⊢
    rw [Int.toNat_of_nonneg (Int.emod_nonneg _ (by norm_num))]
    omega

/-- C13: a sample whose timestamp is set, to the time the decoder makes from a
nonzero millisecond field (before or after 1970), gets a data point in the
series of its name whose timestamp is made from the sample's timestamp, with
no clock reading, and stands for that same time when read back with `AsTime`;
for a time at or after 1970 it is the time's nanoseconds since 1970. -/
theorem set_timestamp_verbatim (clock : Nat → Time) (samples : List metricSample) (i : Nat)
    (s : metricSample) (ms : Int) (hs : samples[i]? = some s) (hms : ms ≠ 0)
    (hts : s.Timestamp = timestampOf ms) :
    s.Timestamp.IsZero = false ∧
    ∃ dp, (pointsFrom clock 0 samples)[i]? = some (s.Name, dp) ∧
      (∃ m ∈ (metricsFromSamples clock samples).series, m.name = s.Name ∧ dp ∈ m.dataPoints) ∧
      dp.timestamp = newTimestampFromTime s.Timestamp ∧
      timestampAsTime dp.timestamp = s.Timestamp ∧
      (0 ≤ s.Timestamp.UnixNano → ((dp.timestamp : Nat) : Int) = s.Timestamp.UnixNano) := by
  obtain ⟨hz, has, -, hpos⟩ := asTime_newTimestamp ms hms
  rw [← hts] at hz has hpos
  have hpt : (pointsFrom clock 0 samples)[i]? =
      some (s.Name, pointOf clock (countUnset (samples.take i)) s) := by
    rw [pointsFrom_getElem?, hs]; simp
  have hdp : (pointOf clock (countUnset (samples.take i)) s).timestamp =
      newTimestampFromTime s.Timestamp := by
    simp [pointOf, hz]
  refine ⟨hz, _, hpt, ?_, hdp, by rw [hdp]; exact has, by rw [hdp]; exact hpos⟩
  have hmem : s.Name ∈ (metricsFromSamples clock samples).series.map (fun m => m.name) := by
    rw [series_metricsFromSamples, (asmInv_foldl clock samples).1, mem_firstSeen]
    exact List.mem_map.mpr ⟨s, List.mem_iff_getElem?.mpr ⟨i, hs⟩, rfl⟩
  obtain ⟨m, hm, hname⟩ := List.mem_map.mp hmem
  refine ⟨m, hm, hname, ?_⟩
  rw [points_series clock samples m hm]
  refine List.mem_map.mpr ⟨(s.Name, pointOf clock (countUnset (samples.take i)) s), ?_, rfl⟩
  exact List.mem_filter.mpr ⟨List.mem_iff_getElem?.mpr ⟨i, hpt⟩, by simp [hname]⟩

/-- Witness of C13: the third example sample, set at -5 ms. -/
theorem set_timestamp_verbatim_witness :
    (metricSample.mk [97] (some [([120], [121])]) (timestampOf (-5))
      4613937818241073152).Timestamp.IsZero = false ∧
    ∃ dp, (pointsFrom (fun _ => Time.zero) 0 exampleSamples)[2]? =
        some ((metricSample.mk [97] (some [([120], [121])]) (timestampOf (-5))
          4613937818241073152).Name, dp) ∧
      (∃ m ∈ (metricsFromSamples (fun _ => Time.zero) exampleSamples).series,
        m.name = (metricSample.mk [97] (some [([120], [121])]) (timestampOf (-5))
          4613937818241073152).Name ∧ dp ∈ m.dataPoints) ∧
      dp.timestamp = newTimestampFromTime (metricSample.mk [97] (some [([120], [121])])
        (timestampOf (-5)) 4613937818241073152).Timestamp ∧
      timestampAsTime dp.timestamp = (metricSample.mk [97] (some [([120], [121])])
        (timestampOf (-5)) 4613937818241073152).Timestamp ∧
      (0 ≤ (metricSample.mk [97] (some [([120], [121])]) (timestampOf (-5))
          4613937818241073152).Timestamp.UnixNano →
        ((dp.timestamp : Nat) : Int) = (metricSample.mk [97] (some [([120], [121])])
          (timestampOf (-5)) 4613937818241073152).Timestamp.UnixNano) :=
  set_timestamp_verbatim (fun _ => Time.zero) exampleSamples 2
    ⟨[97], some [([120], [121])], timestampOf (-5), 4613937818241073152⟩ (-5)
    (by decide) (by decide) rfl

/-- C15: on the empty sample sequence `metricsFromSamples` returns the container
`pmetric.NewMetrics()` made first, untouched: no resource, so no series and no
data point, and no clock reading. -/
theorem metricsFromSamples_empty (clock : Nat → Time) :
    metricsFromSamples clock [] = ⟨[]⟩ ∧
    (metricsFromSamples clock []).resourceMetrics = [] ∧
    (metricsFromSamples clock []).series = [] ∧
    ((metricsFromSamples clock []).series.map (fun m => m.dataPoints.length)).sum = 0 ∧
    (metricsFromSamplesRun clock []).2 = 0 :=
  ⟨rfl, rfl, rfl, rfl, rfl⟩

/-- C20: in the container `metricsFromSamples` builds the series have pairwise
distinct names, every series holds at least one data point, and the data
points of all series together are as many as the samples. -/
theorem no_sample_lost_or_duplicated (clock : Nat → Time) (samples : List metricSample) :
    ((metricsFromSamples clock samples).series.map (fun m => m.name)).Nodup ∧
    (∀ m ∈ (metricsFromSamples clock samples).series, 1 ≤ m.dataPoints.length) ∧
    ((metricsFromSamples clock samples).series.map (fun m => m.dataPoints.length)).sum =
      samples.length := by
  obtain ⟨h1, -, h3⟩ := asmInv_foldl clock samples
  obtain ⟨-, -, hsum⟩ := asmPoints_foldl clock samples
  rw [series_metricsFromSamples]
  refine ⟨by rw [h1]; exact nodup_firstSeen _, ?_, hsum⟩
  intro m hm
  obtain ⟨i, hi⟩ := List.mem_iff_getElem?.mp hm
  have hlen := congrArg List.length (h3 i m hi)
  simp only [List.length_map] at hlen
  rw [hlen]
  have hmem : m.name ∈ samples.map (fun s => s.Name) := by
    rw [← mem_firstSeen, ← h1]
    exact List.mem_map.mpr ⟨m, hm, rfl⟩
  obtain ⟨s, hs, hname⟩ := List.mem_map.mp hmem
  have : s ∈ samples.filter (fun s => decide (s.Name = m.name)) :=
    List.mem_filter.mpr ⟨hs, by simpa using hname⟩
  exact List.length_pos_of_mem this

/-! ## Reading a stream back as records -/

theorem leBytes_littleEndian (bs : List Byte) : leBytes bs.length (littleEndian bs) = bs := by
  induction bs with
  | nil => rfl
  | cons b bs ih =>
    simp only [List.length_cons, leBytes, littleEndian]
    have hb := b.isLt
    have h1 : (Fin.ofNat ((b.val + 256 * littleEndian bs) % 256) : Fin 256) = b := by
      apply Fin.ext
      simp only [Fin.ofNat]
      omega
    have h2 : (b.val + 256 * littleEndian bs) / 256 = littleEndian bs := by omega
    rw [h1, h2, ih]

theorem littleEndian_lt (bs : List Byte) : littleEndian bs < 256 ^ bs.length := by
  induction bs with
  | nil => simp [littleEndian]
  | cons b bs ih =>
    simp only [List.length_cons, littleEndian, pow_succ]
    have hb := b.isLt
    omega

theorem toInt64_range (u : Nat) (h : u < 2 ^ 64) :
    -(2 ^ 63) ≤ toInt64 u ∧ toInt64 u < 2 ^ 63 ∧ (toInt64 u % 2 ^ 64).toNat = u := by
  unfold toInt64
  have hu : ((u : Nat) : Int) < 2 ^ 64 := by exact_mod_cast h
  split
  · rename_i hlt
    have : ((u : Nat) : Int) < 2 ^ 63 := by exact_mod_cast hlt
    refine ⟨by omega, this, ?_⟩
    omega
  · rename_i hge
    have : ¬ ((u : Nat) : Int) < 2 ^ 63 := fun hh => hge (by exact_mod_cast hh)
    refine ⟨by omega, by omega, ?_⟩
    omega

theorem drop_split (s : List Byte) (a b : Nat) :
    s.drop a = (s.drop a).take b ++ s.drop (a + b) := by
  have h := (List.take_append_drop b (s.drop a)).symm
  rw [List.drop_drop] at h
  exact h

/-- A record that `readRecord` reads without error is the encoding of its
fields at the front of the reader. -/
theorem readRecord_inv (s r1 : List Byte) (lfm : Str) (ms : Int) (v : Nat)
    (h : readRecord s = (⟨lfm, ms, v, none⟩, r1)) :
    (RawRecord.mk lfm ms v).Fits ∧ s = encodeRecord ⟨lfm, ms, v⟩ ++ r1 := by
  have hlen2 : 2 ≤ s.length := by
    match s, h with
    | [], h => rw [readRecord_nil] at h; simp at h
    | [b], h => rw [readRecord_one] at h; simp at h
    | _ :: _ :: _, _ => simp
  have hfull : 2 + littleEndian (s.take 2) + 16 ≤ s.length := by
    by_contra hc
    obtain ⟨msg, e, he⟩ := readRecord_trunc s hlen2 (by omega)
    rw [he] at h
    simp at h
  rw [readRecord_ok s hlen2 hfull] at h
  simp only [Prod.mk.injEq, RecordResult.mk.injEq, and_true] at h
  obtain ⟨⟨hl, hm, hv⟩, hr⟩ := h
  have hL : littleEndian (s.take 2) < 65536 := by
    have := littleEndian_lt (s.take 2)
    rw [List.length_take, Nat.min_eq_left hlen2] at this
    simpa using this
  have hlfmlen : lfm.length = littleEndian (s.take 2) := by
    rw [← hl, List.length_take, List.length_drop]; omega
  have h8a : ((s.drop (2 + littleEndian (s.take 2))).take 8).length = 8 := by
    rw [List.length_take, List.length_drop]; omega
  have h8b : ((s.drop (2 + littleEndian (s.take 2) + 8)).take 8).length = 8 := by
    rw [List.length_take, List.length_drop]; omega
  have hu : littleEndian ((s.drop (2 + littleEndian (s.take 2))).take 8) < 2 ^ 64 := by
    have := littleEndian_lt ((s.drop (2 + littleEndian (s.take 2))).take 8)
    rw [h8a] at this
    simpa using this
  have hvlt : v < 2 ^ 64 := by
    have := littleEndian_lt ((s.drop (2 + littleEndian (s.take 2) + 8)).take 8)
    rw [h8b, hv] at this
    simpa using this
  obtain ⟨hlo, hhi, hback⟩ := toInt64_range _ hu
  rw [hm] at hlo hhi hback
  refine ⟨⟨by rw [hlfmlen]; exact hL, hlo, hhi, hvlt⟩, ?_⟩
  have e1 : leBytes 2 lfm.length = s.take 2 := by
    rw [hlfmlen]
    have := leBytes_littleEndian (s.take 2)
    rw [List.length_take, Nat.min_eq_left hlen2] at this
    exact this
  have e2 : leBytes 8 (ms % 2 ^ 64).toNat = (s.drop (2 + littleEndian (s.take 2))).take 8 := by
    rw [hback]
    have := leBytes_littleEndian ((s.drop (2 + littleEndian (s.take 2))).take 8)
    rw [h8a] at this
    exact this
  have e3 : leBytes 8 v = (s.drop (2 + littleEndian (s.take 2) + 8)).take 8 := by
    rw [← hv]
    have := leBytes_littleEndian ((s.drop (2 + littleEndian (s.take 2) + 8)).take 8)
    rw [h8b] at this
    exact this
  unfold encodeRecord
  simp only []
  rw [e1, e2, e3, ← hl, ← hr]
  have d1 : s = s.take 2 ++ s.drop 2 := (List.take_append_drop 2 s).symm
  have d2 := drop_split s 2 (littleEndian (s.take 2))
  have d3 := drop_split s (2 + littleEndian (s.take 2)) 8
  have d4 := drop_split s (2 + littleEndian (s.take 2) + 8) 8
  have e16 : 2 + littleEndian (s.take 2) + 8 + 8 = 2 + littleEndian (s.take 2) + 16 := by omega
  rw [e16] at d4
  conv => lhs; rw [d1, d2, d3, d4]
  simp only [List.append_assoc]

/-- A stream on which the loop succeeds is a concatenation of well-formed
records, and the samples are the ones collected before followed by the
decodings of these records, in order. -/
theorem decodeLoop_inv (fuel : Nat) (s : List Byte) (acc samples : List metricSample)
    (h : decodeLoop fuel s acc = some (some samples, none)) :
    ∃ recs : List RawRecord, (∀ r ∈ recs, r.WellFormed) ∧ s = encodeStream recs ∧
      samples = acc ++ recs.map sampleOf := by
  induction fuel generalizing s acc with
  | zero => simp [decodeLoop] at h
  | succ fuel ih =>
    rcases readRecord_cases s with ⟨hs, _⟩ | ⟨msg, e, hr⟩ | ⟨lfm, ms, v, r1, hr, -⟩
    · subst hs
      rw [decodeLoop_eof] at h
      simp only [Option.some.injEq, Prod.mk.injEq, and_true] at h
      exact ⟨[], by simp, rfl, by simp [h]⟩
    · rw [decodeLoop_readError fuel s [] acc msg e hr] at h
      simp at h
    · obtain ⟨hfits, hs⟩ := readRecord_inv s r1 lfm ms v hr
      by_cases hodd : (splitNul lfm).length % 2 = 1
      · have hwf : (RawRecord.mk lfm ms v).WellFormed := ⟨hfits, hodd⟩
        rw [hs, decodeLoop_record fuel _ hwf] at h
        obtain ⟨recs, hrecs, hr1, hsamples⟩ := ih r1 _ h
        refine ⟨⟨lfm, ms, v⟩ :: recs, ?_, ?_, ?_⟩
        · intro r hr
          rcases List.mem_cons.mp hr with rfl | hr
          · exact hwf
          · exact hrecs r hr
        · rw [hs, hr1]; rfl
        · rw [hsamples]; simp
      · rw [hs, decodeLoop_malformed fuel _ hfits hodd] at h
        simp at h

theorem headD_splitNul (lfm : Str) :
    (splitNul lfm).headD [] = lfm.takeWhile (fun b => decide (b ≠ 0)) := by
  induction lfm with
  | nil => rfl
  | cons b bs ih =>
    unfold splitNul
    by_cases hb : b = 0
    · subst hb
      simp
    · rw [if_neg hb]
      cases hs : splitNul bs with
      | nil => exact absurd hs (splitNul_ne_nil bs)
      | cons p ps =>
        rw [hs] at ih
        simp only [List.headD_cons] at ih
        simp [hb, ih]

theorem name_sampleOf (r : RawRecord) (h : r.WellFormed) :
    (sampleOf r).Name = r.lfm.takeWhile (fun b => decide (b ≠ 0)) := by
  obtain ⟨labels, -, hs⟩ := sampleOf_wellFormed r h.2
  rw [hs]
  exact headD_splitNul r.lfm

/-- C14 as stated fails: the record whose label field is `"\x00k\x00v"` (three
parts, the first one empty) decodes without error to a sample with the empty
name. -/
theorem decoded_name_nonempty_counterexample :
    ¬ (∀ (s : List Byte) (samples : List metricSample),
        decodeTimeseriesBinary s = some (some samples, none) →
        ∀ x ∈ samples, x.Name ≠ []) := by
  intro h
  have := h (encodeRecord ⟨[0, 107, 0, 118], 5, 7⟩)
    [⟨[], some [([107], [118])], timestampOf 5, 7⟩] (by decide)
    ⟨[], some [([107], [118])], timestampOf 5, 7⟩ (by simp)
  exact this rfl

/-- C14, amended: a stream on which `decodeTimeseriesBinary` succeeds is a
concatenation of well-formed records and the samples are their decodings in
order; the name of each sample is the part of its record's label field before
the first NUL byte, and for a non-empty label field it is empty exactly when
the field begins with a NUL byte. -/
theorem decoded_name_is_first_part (s : List Byte) (samples : List metricSample)
    (h : decodeTimeseriesBinary s = some (some samples, none)) :
    ∃ recs : List RawRecord, (∀ r ∈ recs, r.WellFormed) ∧ s = encodeStream recs ∧
      samples = recs.map sampleOf ∧
      ∀ r ∈ recs,
        (sampleOf r).Name = r.lfm.takeWhile (fun b => decide (b ≠ 0)) ∧
        (r.lfm ≠ [] → ((sampleOf r).Name = [] ↔ r.lfm.head? = some 0)) := by
  obtain ⟨recs, hwf, hs, hsamples⟩ := decodeLoop_inv _ s [] samples h
  refine ⟨recs, hwf, hs, by simpa using hsamples, ?_⟩
  intro r hr
  have hname := name_sampleOf r (hwf r hr)
  refine ⟨hname, ?_⟩
  intro hne
  rw [hname]
  cases hl : r.lfm with
  | nil => exact absurd hl hne
  | cons b bs =>
    by_cases hb : b = 0
    · simp [hb]
    · simp [hb]

/-- Witness of C14 amended: the stream of the two example records. -/
theorem decoded_name_is_first_part_witness :
    ∃ recs : List RawRecord, (∀ r ∈ recs, r.WellFormed) ∧
      encodeStream exampleRecords = encodeStream recs ∧
      exampleRecords.map sampleOf = recs.map sampleOf ∧
      ∀ r ∈ recs,
        (sampleOf r).Name = r.lfm.takeWhile (fun b => decide (b ≠ 0)) ∧
        (r.lfm ≠ [] → ((sampleOf r).Name = [] ↔ r.lfm.head? = some 0)) :=
  decoded_name_is_first_part (encodeStream exampleRecords) (exampleRecords.map sampleOf)
    (by decide)

/-! ## The handler -/

theorem serveHTTP_routed (clock : Nat → Time) (consume : Metrics → Option GoError)
    (method path : String) (body : List Byte) (hm : method = "POST")
    (hp : startsWith path.toList "/v1/metrics/".toList = true) :
    ServeHTTP clock consume method path body =
      match decodeTimeseriesBinary body with
      | none => none
      | some (samples, err) =>
        if err ≠ none then some ⟨400, []⟩
        else if (samples.getD []).length > 0 then
          if consume (metricsFromSamples clock (samples.getD [])) ≠ none then
            some ⟨500, [metricsFromSamples clock (samples.getD [])]⟩
          else some ⟨202, [metricsFromSamples clock (samples.getD [])]⟩
        else some ⟨202, []⟩ := by
  unfold ServeHTTP
  rw [if_neg (fun h => h hm), if_neg (by rw [hp]; decide)]

/-- C16 as stated fails: the POST request to `/v1/metrics/x` with the empty body
decodes without error (to no sample), and `ServeHTTP` answers 202 without
passing any container to the consumer. -/
theorem serveHTTP_delivers_counterexample :
    ¬ (∀ (clock : Nat → Time) (consume : Metrics → Option GoError) (method path : String)
        (body : List Byte) (samples : List metricSample),
        method = "POST" → startsWith path.toList "/v1/metrics/".toList = true →
        decodeTimeseriesBinary body = some (some samples, none) →
        ∃ status, ServeHTTP clock consume method path body =
          some ⟨status, [metricsFromSamples clock samples]⟩) := by
  intro h
  obtain ⟨status, hs⟩ := h (fun _ => Time.zero) (fun _ => none) "POST" "/v1/metrics/x" [] []
    rfl (by decide) (by decide)
  rw [serveHTTP_routed _ _ _ _ _ rfl (by decide)] at hs
  have hd : decodeTimeseriesBinary [] = some (some [], none) := by decide
  rw [hd] at hs
  simp at hs

/-- C16, amended: for a POST request under `/v1/metrics/` whose body decodes
without error to at least one sample, `ServeHTTP` passes exactly one container
to the consumer, the one assembled from the decoded samples, and answers 202,
or 500 when the consumer returns an error; when the body decodes to no sample
it passes nothing and answers 202. -/
theorem serveHTTP_delivers_nonempty (clock : Nat → Time) (consume : Metrics → Option GoError)
    (method path : String) (body body0 : List Byte) (samples : List metricSample)
    (hm : method = "POST") (hp : startsWith path.toList "/v1/metrics/".toList = true)
    (hdec : decodeTimeseriesBinary body = some (some samples, none)) (hne : samples ≠ [])
    (hdec0 : decodeTimeseriesBinary body0 = some (some [], none)) :
    ServeHTTP clock consume method path body =
      some ⟨if consume (metricsFromSamples clock samples) = none then 202 else 500,
        [metricsFromSamples clock samples]⟩ ∧
    ServeHTTP clock consume method path body0 = some ⟨202, []⟩ := by
  constructor
  · rw [serveHTTP_routed _ _ _ _ _ hm hp, hdec]
    have hpos : samples.length > 0 := List.length_pos.mpr hne
    by_cases hc : consume (metricsFromSamples clock samples) = none
    · simp [hpos, hc]
    · simp [hpos, hc]
  · rw [serveHTTP_routed _ _ _ _ _ hm hp, hdec0]
    simp

/-- Witness of C16 amended: the stream of the two example records, and the
empty body, posted to `/v1/metrics/x` with a consumer that accepts. -/
theorem serveHTTP_delivers_nonempty_witness :
    ServeHTTP (fun _ => Time.zero) (fun _ => none) "POST" "/v1/metrics/x"
        (encodeStream exampleRecords) =
      some ⟨202, [metricsFromSamples (fun _ => Time.zero) (exampleRecords.map sampleOf)]⟩ ∧
    ServeHTTP (fun _ => Time.zero) (fun _ => none) "POST" "/v1/metrics/x" [] =
      some ⟨202, []⟩ :=
  serveHTTP_delivers_nonempty (fun _ => Time.zero) (fun _ => none) "POST" "/v1/metrics/x"
    (encodeStream exampleRecords) [] (exampleRecords.map sampleOf) rfl (by decide)
    (by decide) (by decide) (by decide)

/-- C17: when the decoder returns an error on the body, `ServeHTTP` passes
nothing to the consumer and answers with a failure status, never 202: 400 for
a POST request under `/v1/metrics/`, the requests that reach the decoder, and
405 or 404 for a request turned away before. -/
theorem serveHTTP_failed_decode (clock : Nat → Time) (consume : Metrics → Option GoError)
    (method path : String) (body : List Byte) (samples : Option (List metricSample))
    (e : GoError) (hdec : decodeTimeseriesBinary body = some (samples, some e)) :
    ∃ status, ServeHTTP clock consume method path body = some ⟨status, []⟩ ∧
      status ≠ 202 ∧
      (method = "POST" → startsWith path.toList "/v1/metrics/".toList = true →
        status = 400) ∧
      (status = 405 ∨ status = 404 ∨ status = 400) := by
  by_cases hm : method = "POST"
  · by_cases hp : startsWith path.toList "/v1/metrics/".toList = true
    · refine ⟨400, ?_, by decide, fun _ _ => rfl, by decide⟩
      rw [serveHTTP_routed _ _ _ _ _ hm hp, hdec]
      simp
    · refine ⟨404, ?_, by decide, fun _ h => absurd h hp, by decide⟩
      unfold ServeHTTP
      rw [if_neg (fun h => h hm), if_pos (Bool.eq_false_iff.mpr hp)]
  · refine ⟨405, ?_, by decide, fun h => absurd h hm, by decide⟩
    unfold ServeHTTP
    rw [if_pos hm]

/-- Witness of C17: the one-byte body `[1]` posted to `/v1/metrics/x`. -/
theorem serveHTTP_failed_decode_witness :
    ∃ status, ServeHTTP (fun _ => Time.zero) (fun _ => none) "POST" "/v1/metrics/x" [1] =
        some ⟨status, []⟩ ∧
      status ≠ 202 ∧
      (("POST" : String) = "POST" →
        startsWith ("/v1/metrics/x" : String).toList "/v1/metrics/".toList = true →
        status = 400) ∧
      (status = 405 ∨ status = 404 ∨ status = 400) :=
  serveHTTP_failed_decode (fun _ => Time.zero) (fun _ => none) "POST" "/v1/metrics/x" [1]
    none (GoError.wrapped "read lfm length" GoError.ErrUnexpectedEOF) (by decide)

/-! ## Termination and index safety -/

theorem decodeLoop_succ (fuel : Nat) (s : List Byte) (acc : List metricSample)
    (res : Option (List metricSample) × Option GoError)
    (h : decodeLoop fuel s acc = some res) : decodeLoop (fuel + 1) s acc = some res := by
  induction fuel generalizing s acc with
  | zero => simp [decodeLoop] at h
  | succ fuel ih =>
    rcases readRecord_cases s with ⟨hs, _⟩ | ⟨msg, e, hr⟩ | ⟨lfm, ms, v, r1, hr, -⟩
    · subst hs
      rw [decodeLoop_eof] at h ⊢
      exact h
    · rw [decodeLoop_readError _ s [] acc msg e hr] at h ⊢
      exact h
    · obtain ⟨hfits, hs⟩ := readRecord_inv s r1 lfm ms v hr
      by_cases hodd : (splitNul lfm).length % 2 = 1
      · have hwf : (RawRecord.mk lfm ms v).WellFormed := ⟨hfits, hodd⟩
        rw [hs, decodeLoop_record _ _ hwf] at h ⊢
        exact ih _ _ h
      · rw [hs, decodeLoop_malformed _ _ hfits hodd] at h ⊢
        exact h

theorem decodeLoop_mono (fuel k : Nat) (s : List Byte) (acc : List metricSample)
    (res : Option (List metricSample) × Option GoError)
    (h : decodeLoop fuel s acc = some res) : decodeLoop (fuel + k) s acc = some res := by
  induction k with
  | zero => exact h
  | succ k ih => exact decodeLoop_succ _ s acc res ih

/-- C18: `decodeTimeseriesBinary` returns on every finite stream: an iteration
of the loop either ends it or reads a record of at least 18 bytes, so
`len / 18 + 1` iterations are enough, and any larger number of allowed
iterations gives the same result. -/
theorem decode_terminates (s : List Byte) :
    (∃ res, decodeTimeseriesBinary s = some res ∧
      decodeLoop (s.length / 18 + 1) s [] = some res ∧
      ∀ fuel, s.length / 18 + 1 ≤ fuel → decodeLoop fuel s [] = some res) ∧
    (∀ (rec : RecordResult) (r1 : List Byte), readRecord s = (rec, r1) →
      rec.err ≠ none ∨ r1.length + 18 ≤ s.length) := by
  constructor
  · obtain ⟨res, hres, -⟩ := decodeLoop_total (s.length / 18 + 1) s [] (by omega)
    have hmono : ∀ fuel, s.length / 18 + 1 ≤ fuel → decodeLoop fuel s [] = some res := by
      intro fuel hf
      have := decodeLoop_mono (s.length / 18 + 1) (fuel - (s.length / 18 + 1)) s [] res hres
      have e : s.length / 18 + 1 + (fuel - (s.length / 18 + 1)) = fuel := by omega
      rw [e] at this
      exact this
    exact ⟨res, hmono (s.length + 1) (by omega), hres, hmono⟩
  · intro rec r1 h
    rcases readRecord_cases s with ⟨-, hr⟩ | ⟨msg, e, hr⟩ | ⟨lfm, ms, v, r2, hr, hlen⟩
    · rw [hr] at h
      simp only [Prod.mk.injEq] at h
      left; rw [← h.1]; simp
    · rw [hr] at h
      simp only [Prod.mk.injEq] at h
      left; rw [← h.1]; simp
    · rw [hr] at h
      simp only [Prod.mk.injEq] at h
      right; rw [← h.2]; exact hlen

theorem pairLoop_none_iff (l : List Str) (labels : GoMap Str Str) :
    pairLoop l labels = none ↔ l.length % 2 = 1 := by
  induction l, labels using pairLoop.induct with
  | case1 labels => simp [pairLoop]
  | case2 x labels => simp [pairLoop]
  | case3 k v rest labels ih =>
    simp only [pairLoop, ih, List.length_cons]
    omega

/-- C19: `parseLFM` returns on every input, without the index panic: the split
never has zero parts, and when the part count is odd every index `i` and
`i + 1` the pair loop uses (`i` odd, `i < len(parts)`) is below the part
count, so the loop ends with a map; the loop would panic exactly on an odd
number of parts to pair. -/
theorem parseLFM_index_in_bounds (lfm : Str) :
    (∃ res, parseLFM lfm = some res) ∧
    1 ≤ (splitNul lfm).length ∧
    ((splitNul lfm).length % 2 = 1 →
      (∀ i, i % 2 = 1 → i < (splitNul lfm).length →
        i < (splitNul lfm).length ∧ i + 1 < (splitNul lfm).length) ∧
      ∃ labels, pairLoop ((splitNul lfm).drop 1) [] = some labels) ∧
    (∀ (l : List Str) (labels : GoMap Str Str),
      pairLoop l labels = none ↔ l.length % 2 = 1) := by
  refine ⟨?_, ?_, ?_, pairLoop_none_iff⟩
  · rcases parseLFM_cases lfm with h | ⟨labels, h⟩
    · exact ⟨_, h⟩
    · exact ⟨_, h⟩
  · have := length_splitNul lfm
    omega
  · intro hodd
    refine ⟨fun i hi hlt => ⟨hlt, by omega⟩, ?_⟩
    obtain ⟨labels, hl, -⟩ := parseLFM_ok lfm hodd
    exact ⟨labels, hl⟩

end TimeseriesBinary
